import Mathlib

/-!
# Verification of the compound elementwise-kernel fusion engine

A shallow embedding of `third_party/nervanagpu/nervanagpu/float_ew.py`:
the postfix expression builder (`_build_tree`), the stage splitter
(`_split_stages` / `_process_node`), the fast elementwise dimension
selection (`_get_fast_ew_dims`), the call driver (`call_compound_kernel`)
and the slot-relevant skeleton of the code generator
(`_get_compound_kernel`), together with proofs about them.

Python lists that are mutated in place (`_split_stages` truncates and
re-tags ancestor nodes while recursive calls on their subtrees are still
active) are embedded with an explicit arena: nodes live in a list indexed
by integers, children are references, and every mutation is a functional
update of the arena, which reproduces Python's reference semantics.
Machine floats appear only as opaque constant values; we model them as
rationals because the engine never computes with them, it only compares
them for equality when deduplicating kernel arguments.
-/

namespace FloatEW

/-- Arity of each entry of `_float_ops` (`float_ew.py` lines 464-495);
`none` means the name is not a float op. -/
def floatOpArity : String → Option Nat
  | "assign" => some 2
  | "add" => some 2
  | "sub" => some 2
  | "mul" => some 2
  | "div" => some 2
  | "eq" => some 2
  | "ne" => some 2
  | "lt" => some 2
  | "le" => some 2
  | "gt" => some 2
  | "ge" => some 2
  | "minimum" => some 2
  | "maximum" => some 2
  | "pow" => some 2
  | "finite" => some 1
  | "neg" => some 1
  | "abs" => some 1
  | "sgn" => some 1
  | "sqrt" => some 1
  | "sqr" => some 1
  | "exp" => some 1
  | "log" => some 1
  | "exp2" => some 1
  | "log2" => some 1
  | "sig" => some 1
  | "sig2" => some 1
  | "tanh" => some 1
  | "tanh2" => some 1
  | "rand" => some 0
  | "onehot" => some 0
  | _ => none

/-- Membership in `_reduction_ops` (`float_ew.py` lines 497-533). -/
def isReductionOp : String → Bool
  | "sum" => true
  | "max" => true
  | "min" => true
  | "argmax" => true
  | "argmin" => true
  | _ => false

/-- `op_name[0:3] == "arg"` test of the call driver. -/
def isArgMinMax (s : String) : Bool :=
  s.take 3 = "arg"

/-- One entry of the `type_args` tuple handed to `_get_compound_kernel`.
  * `tensor idx dtype takeAxis` embeds `(ng.GPUTensor, indx, dtype.str[1:], take_axis)`;
  * `const idx` embeds `(float, indx)`;
  * `opa name cnt extra` embeds `(op_name, op_cnt, *extra)` where `extra` is
    `[rounding_flag, threads]` for `assign` (the boolean `rounding > 0`
    encoded as 0/1), `[hot_axis]` for `onehot`, and `[]` otherwise. -/
inductive TypeArg where
  | tensor (idx : Nat) (dtype : String) (takeAxis : Nat)
  | const (idx : Nat)
  | opa (name : String) (cnt : Nat) (extra : List Nat)
  deriving DecidableEq, Repr

namespace TypeArg

/-- `arg[0]` seen as the dispatch tag of `_build_tree`: the op name for an
operation tuple, nothing for tensors and constants (whose first element is
a Python class, never a string). -/
def opName? : TypeArg → Option String
  | .opa n _ _ => some n
  | _ => none

end TypeArg

/-- A node rebuilt by `_build_tree`
(`node: [ arg, is_scalar, red_count, left_child, right_child ]`).
Children sit at Python list positions 3 and 4; since every operation has
arity ≤ 2 we split the node by child count, which keeps the type a plain
(non-nested) inductive.  A `leaf` is a raw stack entry that never became
a node: a tensor or constant tuple (or an operation tuple whose name is
in neither table, which Python would also just push). -/
inductive PTree where
  | leaf (a : TypeArg)
  | node0 (a : TypeArg) (scalar : Bool) (red : Nat)
  | node1 (a : TypeArg) (scalar : Bool) (red : Nat) (c3 : PTree)
  | node2 (a : TypeArg) (scalar : Bool) (red : Nat) (c3 c4 : PTree)
  deriving DecidableEq, Repr

namespace PTree

/-- The `arg` of a tree (position 0 of the Python list / the raw tuple). -/
def arg : PTree → TypeArg
  | .leaf a => a
  | .node0 a _ _ => a
  | .node1 a _ _ _ => a
  | .node2 a _ _ _ _ => a

/-- The scalar flag of a node (`node[1]`); leaves have none. -/
def scalarOf : PTree → Option Bool
  | .leaf _ => none
  | .node0 _ s _ => some s
  | .node1 _ s _ _ => some s
  | .node2 _ s _ _ _ => some s

/-- The reduction count of a node (`node[2]`); leaves have none. -/
def redOf : PTree → Option Nat
  | .leaf _ => none
  | .node0 _ _ r => some r
  | .node1 _ _ r _ => some r
  | .node2 _ _ r _ _ => some r

end PTree

/-- The effect of popping `operand` while building a `_float_ops` node:
`node[2] += operand[2]` for node operands (leaves contribute nothing). -/
def operandRed : PTree → Nat
  | .leaf _ => 0
  | .node0 _ _ r => r
  | .node1 _ _ r _ => r
  | .node2 _ _ r _ _ => r

/-- Whether popping `operand` clears the node's scalar flag:
a node operand with `operand[1] == 0`, or an input tensor leaf with
index `> 0` (the output tensor has index 0).  Constant leaves (and any
other raw tuple) never clear it. -/
def operandClearsScalar : PTree → Bool
  | .leaf (.tensor idx _ _) => decide (idx > 0)
  | .leaf _ => false
  | .node0 _ s _ => !s
  | .node1 _ s _ _ => !s
  | .node2 _ s _ _ _ => !s

/-- One step of the `_build_tree` stack loop for an arg of `_float_ops`:
`node = [arg, numops > 0, 0]`, pop `numops` operands accumulating the
scalar flag and reduction count, insert each at position 3 (reverse pop
order).  The stack has its top at the head.  `_float_ops` arities are
0, 1 or 2, so those are the only cases. -/
def floatOpStep (a : TypeArg) (numops : Nat) (stack : List PTree) :
    Except String (List PTree) :=
  match numops with
  | 0 => .ok (.node0 a false 0 :: stack)
  | 1 =>
    match stack with
    | o1 :: rest =>
      .ok (.node1 a (true && !operandClearsScalar o1) (operandRed o1) o1 :: rest)
    | [] => .error "IndexError: pop from empty list"
  | 2 =>
    match stack with
    | o1 :: o2 :: rest =>
      .ok (.node2 a (true && !operandClearsScalar o1 && !operandClearsScalar o2)
            (operandRed o1 + operandRed o2) o2 o1 :: rest)
    | [o1] =>
      let _ := o1
      .error "IndexError: pop from empty list"
    | [] => .error "IndexError: pop from empty list"
  | _ + 3 => .error "arity above 2 cannot occur in _float_ops"

/-- `_build_tree` (`float_ew.py` lines 540-580), one token. -/
def buildStep (stack : List PTree) (a : TypeArg) : Except String (List PTree) :=
  match a.opName? with
  | some name =>
    match floatOpArity name with
    | some numops => floatOpStep a numops stack
    | none =>
      if isReductionOp name then
        match stack with
        | [] => .error "IndexError: pop from empty list"
        | operand :: rest =>
          .ok (.node1 a true (1 + operandRed operand) operand :: rest)
      else
        -- names in neither table are pushed like tensors and scalars
        .ok (.leaf a :: stack)
  | none => .ok (.leaf a :: stack)

/-- `_build_tree` over the whole stream: fold the token loop, then return
Python's `stack[0]` — the *bottom* of the stack — exactly as the source
does, so leftover operands are silently dropped; an empty stack or a pop
past the end surfaces Python's `IndexError`. -/
def buildTree (typeArgs : List TypeArg) : Except String PTree := do
  let stack ← typeArgs.foldlM buildStep []
  match stack.getLast? with
  | some t => return t
  | none => throw "IndexError: list index out of range"

/-- Number of reduction nodes in a tree, the root included. -/
def countReds : PTree → Nat
  | .leaf _ => 0
  | .node0 a _ _ => if isReductionOp ((a.opName?).getD "") then 1 else 0
  | .node1 a _ _ c => (if isReductionOp ((a.opName?).getD "") then 1 else 0) + countReds c
  | .node2 a _ _ c d =>
      (if isReductionOp ((a.opName?).getD "") then 1 else 0) + countReds c + countReds d

/-- The values visited by the first loop of `_get_fast_ew_dims`:
`ew_size = 256` decremented by 32 while positive. -/
def ew32Chain : List Nat := [256, 224, 192, 160, 128, 96, 64, 32]

/-- The values visited by the second loop of `_get_fast_ew_dims`:
`ew_size = 255` decremented by 1 while positive. -/
def ew1Chain : List Nat := (List.range 255).map (fun i => 255 - i)

/-- First loop of `_get_fast_ew_dims`: the first (largest) entry of the
descending 32-step chain dividing `size`, 0 when the loop runs out. -/
def ewLoop32 (size : Nat) : Nat :=
  (ew32Chain.find? (fun d => size % d = 0)).getD 0

/-- Second loop of `_get_fast_ew_dims`: the first (largest) entry of
255, 254, …, 1 dividing `size`, 0 when the loop runs out. -/
def ewLoop1 (size : Nat) : Nat :=
  (ew1Chain.find? (fun d => size % d = 0)).getD 0

/-- The `ew_size` selected by `_get_fast_ew_dims` (lines 1037-1055). -/
def fastEwSize (size : Nat) : Nat :=
  let e := ewLoop32 size
  if e = 0 then
    let e2 := ewLoop1 size
    if e2 = 0 then 255 else e2
  else e

/-- The `shape` returned by `_get_fast_ew_dims`: `(size // ew_size, ew_size)`.
(The strides half of the return value is `ng._contiguous_strides(shape)`,
built by `fastEwStrides` below.) -/
def fastEwShape (size : Nat) : Nat × Nat :=
  (size / fastEwSize size, fastEwSize size)

/-- Modelled from the spec: `ng._contiguous_strides` lives in
`nervanagpu.py`, which is not under `src/`; per the glossary and §3 a
contiguous 2-D view has row-major strides, i.e. `(cols, 1)`. -/
def fastEwStrides (size : Nat) : Int × Int :=
  ((fastEwShape size).2, 1)

/-! ## The mutable tree arena for `_split_stages`

`_split_stages` mutates nodes (re-tags a duplicate's `node[0]`, drops
children, decrements ancestors' reduction counts) while recursive calls
on those very nodes are still on the Python call stack.  To reproduce
those reference semantics we store nodes in an arena indexed by `Nat`
and thread the arena through every step. -/

/-- An entry of a node's children list: a raw tuple (tensor/constant
leaf) or a reference to another node of the arena. -/
inductive Elem where
  | leafE (a : TypeArg)
  | ref (i : Nat)
  deriving DecidableEq, Repr

/-- An arena node: `[arg, scalar, red, *children]`.  `red` is an `Int`
because Python's decrements are unchecked. -/
structure ANode where
  arg : TypeArg
  scalar : Bool
  red : Int
  children : List Elem
  deriving DecidableEq, Repr

abbrev Arena := List ANode

/-- Arena read; out-of-range indices (which never occur on runs built by
`toArenaAux`) yield an inert placeholder node. -/
def aget (ar : Arena) (i : Nat) : ANode :=
  ar.getD i ⟨TypeArg.const 0, false, 0, []⟩

/-- Load a `_build_tree` result into the arena (children allocated before
their parent, matching the order the nodes were constructed in). -/
def toArenaAux : PTree → Arena → Elem × Arena
  | .leaf a, ar => (.leafE a, ar)
  | .node0 a s r, ar => (.ref ar.length, ar ++ [⟨a, s, r, []⟩])
  | .node1 a s r c, ar =>
      let (e, ar1) := toArenaAux c ar
      (.ref ar1.length, ar1 ++ [⟨a, s, r, [e]⟩])
  | .node2 a s r c d, ar =>
      let (ec, ar1) := toArenaAux c ar
      let (ed, ar2) := toArenaAux d ar1
      (.ref ar2.length, ar2 ++ [⟨a, s, r, [ec, ed]⟩])

/-- `_post_order` (`float_ew.py` lines 595-608) on the arena: children in
order, then the node's own arg; raw tuples are appended as-is.  `fuel`
bounds the recursion depth; every concrete run is given enough. -/
def postOrderE (ar : Arena) : Nat → Elem → List TypeArg
  | 0, _ => []
  | _, .leafE a => [a]
  | fuel + 1, .ref i =>
      let n := aget ar i
      (n.children.map (postOrderE ar fuel)).flatten ++ [n.arg]

/-- `item[0:2]` of a type-arg tuple: the structural head used in dedup
keys — the tag class plus the id, dropping dtype/take-axis for tensors
and any extra fields for operations. -/
inductive Head where
  | tensorH (idx : Nat)
  | constH (idx : Nat)
  | opH (name : String) (cnt : Nat)
  deriving DecidableEq, Repr

/-- `item[0:2]`. -/
def TypeArg.head : TypeArg → Head
  | .tensor idx _ _ => .tensorH idx
  | .const idx => .constH idx
  | .opa n c _ => .opH n c

/-- One item of a `_process_node` dedup key: operation names are appended
bare, while tensors, constants and aliased operations contribute their
`item[0:2]` head. -/
inductive KeyItem where
  | opNameK (s : String)
  | headK (h : Head)
  deriving DecidableEq, Repr

abbrev Key := List KeyItem

/-- The dedup key of a serialized subtree (`_process_node` lines 618-627):
`if type(item[0]) is str and item not in aliases: key.append(item[0])`
`else: key.append(item[0:2])`. -/
def keyOf (stack : List TypeArg) (aliases : List TypeArg) : Key :=
  stack.map fun item =>
    match item.opName? with
    | some name => if item ∈ aliases then .headK item.head else .opNameK name
    | none => .headK item.head

/-- State threaded through `_split_stages`: the node arena, the
`duplicates` dict, the `aliases` set, the accumulated `stages`, and the
`parents` stack of node indices.  `stageKeys` is bookkeeping the source
does not store: the dedup key under which each stage was registered
(needed only to *state* the deduplication theorem). -/
structure SplitState where
  arena : Arena
  duplicates : List (Key × TypeArg)
  aliases : List TypeArg
  stages : List (String × List TypeArg)
  stageKeys : List Key
  parents : List Nat
  deriving Repr

/-- Truncate a node's children (`while len(node) > 3: node.pop()`). -/
def dropChildren (ar : Arena) (nid : Nat) : Arena :=
  match ar.get? nid with
  | none => ar
  | some n => ar.set nid { n with children := [] }

/-- Replace a node's arg (`node[0] = dup_node`). -/
def setArg (ar : Arena) (nid : Nat) (a : TypeArg) : Arena :=
  match ar.get? nid with
  | none => ar
  | some n => ar.set nid { n with arg := a }

/-- `_process_node` (`float_ew.py` lines 614-647): serialize the subtree,
build the dedup key, and either convert the node into an alias of the
recorded original (duplicate, no stage) or record the stack's last entry
in `duplicates`/`aliases` (fresh, stage returned).  Children are dropped
in both cases.  The computed key is also returned (bookkeeping). -/
def processNode (fuel : Nat) (nid : Nat) (st : SplitState) :
    Option (List TypeArg) × Key × SplitState :=
  let stack := postOrderE st.arena fuel (.ref nid)
  let key := keyOf stack st.aliases
  match st.duplicates.lookup key with
  | some dupArg =>
      (none, key, { st with arena := dropChildren (setArg st.arena nid dupArg) nid })
  | none =>
      let last := stack.getLastD (TypeArg.const 0)
      (some stack, key,
        { st with
          duplicates := (key, last) :: st.duplicates
          aliases := last :: st.aliases
          arena := dropChildren st.arena nid })

/-- `for parent in parents: parent[2] -= 1`. -/
def decParents (ps : List Nat) (ar : Arena) : Arena :=
  match ps with
  | [] => ar
  | p :: rest =>
      decParents rest
        (match ar.get? p with
         | none => ar
         | some n => ar.set p { n with red := n.red - 1 })

/-- `for parent in parents[::-1]: if parent[1] and parent[2] == 0:`
`scalar_parent = parent else: break` — walk the reversed parent list
keeping the highest ancestor that is scalar with no reductions left. -/
def walkScalarParent (ar : Arena) : List Nat → Option Nat → Option Nat
  | [], sp => sp
  | p :: rest, sp =>
      let n := aget ar p
      if n.scalar ∧ n.red = 0 then walkScalarParent ar rest (some p) else sp

/-- `_split_stages` (`float_ew.py` lines 651-705).  Field reads are
re-done after each recursive call exactly where the Python re-reads the
mutable node (`len(node) > 4`, `node[0][0] in _reduction_ops`), so
truncations performed by a descendant's scalar-parent extraction are
observed just as they are at runtime.  `fuel = 0` stops early; the
theorems below hold for every fuel and concrete runs get enough. -/
def splitVisit : Nat → Elem → SplitState → SplitState
  | 0, _, st => st
  | _, .leafE _, st => st
  | fuel + 1, .ref nid, st =>
    let node := aget st.arena nid
    -- don't count the assignment node as a parent
    let st1 :=
      if node.arg.opName? = some "assign" then st
      else { st with parents := st.parents ++ [nid] }
    -- post order traversal: child at position 3 …
    let st2 :=
      match node.children.get? 0 with
      | some c => splitVisit fuel c st1
      | none => st1
    -- … then position 4, re-reading the possibly-truncated node
    let node2 := aget st2.arena nid
    let st3 :=
      match node2.children.get? 1 with
      | some c => splitVisit fuel c st2
      | none => st2
    let st4 := { st3 with parents := st3.parents.dropLast }
    let node3 := aget st4.arena nid
    if isReductionOp ((node3.arg.opName?).getD "") then
      let (redStack, rkey, st5) := processNode (fuel + 1) nid st4
      let st6 :=
        match redStack with
        | some stk =>
            { st5 with stages := st5.stages ++ [("reduction", stk)],
                       stageKeys := st5.stageKeys ++ [rkey] }
        | none => st5
      let st7 := { st6 with arena := decParents st6.parents st6.arena }
      match walkScalarParent st7.arena st7.parents.reverse none with
      | none => st7
      | some sp =>
          let (scStack, skey, st8) := processNode (fuel + 1) sp st7
          match scStack with
          | some stk =>
              { st8 with stages := st8.stages ++ [("scalar", stk)],
                         stageKeys := st8.stageKeys ++ [skey] }
          | none => st8
    else st4

/-- Fresh state for a `_split_stages` run. -/
def initSplitState (ar : Arena) : SplitState := ⟨ar, [], [], [], [], []⟩

/-- Python's `tree[1] == 1` on the post-split tree: the scalar flag for a
node (`True == 1`), the numeric second tuple field for a raw leaf. -/
def treeFieldOneEqOne (ar : Arena) : Elem → Bool
  | .ref i => (aget ar i).scalar
  | .leafE (.tensor idx _ _) => decide (idx = 1)
  | .leafE (.const idx) => decide (idx = 1)
  | .leafE (.opa _ c _) => decide (c = 1)

/-- The stage list assembled by `_get_compound_kernel` lines 717-731:
build the tree, split the stages out of it, then append the remainder of
the tree as the final stage (`red_out` when the root is scalar, `ew_out`
otherwise).  Also returns the final split state. -/
def compoundStages (fuel : Nat) (ta : List TypeArg) :
    Except String (SplitState × List (String × List TypeArg)) := do
  let tree ← buildTree ta
  let (root, ar) := toArenaAux tree []
  let st := splitVisit fuel root (initSplitState ar)
  let lastType := if treeFieldOneEqOne st.arena root then "red_out" else "ew_out"
  return (st, st.stages ++ [(lastType, postOrderE st.arena fuel root)])

/-! ## Slot-level skeleton of `_get_compound_kernel`

For the argument-marshaling claims only the *positional signature* the
kernel is prepared with matters (`kernel.prepare(sig)`), i.e. which
parameter slots each processed arg contributes: `P` (pointer), `i`
(integer) or `f` (float).  We embed the stage-processing loop restricted
to everything that feeds `sig`/`arg_dict`, dropping the emitted source
strings. -/

/-- One character of the `prepare` signature. -/
inductive Slot where
  | P
  | I
  | F
  deriving DecidableEq, Repr

/-- Insert with Python-dict overwrite semantics into an association list
that holds at most one entry per key. -/
def dictInsert (k : TypeArg) (v : List Slot) (d : List (TypeArg × List Slot)) :
    List (TypeArg × List Slot) :=
  (k, v) :: d.filter (fun p => p.1 ≠ k)

/-- State of the stage-processing loop of `_get_compound_kernel`
(lines 739-989), restricted to signature-relevant fields: the working
stack is tracked only by its depth (its entries are register name
strings whose content never reaches `sig`). -/
structure CGState where
  depth : Nat
  argDict : List (TypeArg × List Slot)
  arrayIds : List Nat
  arrayIdStages : List (Nat × Nat)
  stageOutReg : List TypeArg
  deriving Repr

/-- Process one `arg` of one stage stack (lines 797-989), keeping the
signature bookkeeping: `arg_dict` writes, the `array_ids` first-occurrence
sets, `stage_out_reg` membership, and stack pushes/pops (Python raises
`IndexError` when popping an empty list). -/
def cgArg (isLastStage : Bool) (stageIdx : Nat) (argIdx : Nat) (isLastArg : Bool)
    (st : CGState) (arg : TypeArg) : Except String CGState :=
  match arg with
  | .tensor idx _ takeAxis =>
      let isOut := isLastStage ∧ argIdx = 0
      -- first arg of the last stage is the output array, don't put on stack
      let st := if isOut then st else { st with depth := st.depth + 1 }
      if idx ∉ st.arrayIds then
        .ok { st with
          arrayIds := idx :: st.arrayIds
          arrayIdStages := (idx, stageIdx) :: st.arrayIdStages
          argDict := dictInsert arg ([.P, .I, .I] ++ if takeAxis > 0 then [.P] else [])
            st.argDict }
      else if (idx, stageIdx) ∉ st.arrayIdStages then
        .ok { st with arrayIdStages := (idx, stageIdx) :: st.arrayIdStages }
      else
        .ok st
  | .const _ =>
      let st := { st with depth := st.depth + 1 }
      if st.argDict.all (fun p => p.1 ≠ arg) then
        .ok { st with argDict := dictInsert arg [.F] st.argDict }
      else
        .ok st
  | .opa name _ extra =>
      if name = "assign" then
        -- loop end condition, plus the mantissa when the rounding flag is set
        let slots : List Slot := if extra.getD 0 0 > 0 then [.I, .I] else [.I]
        let st := { st with argDict := dictInsert arg slots st.argDict }
        match st.depth with
        | 0 => .error "IndexError: pop from empty list"
        | d + 1 => .ok { st with depth := d }
      else if arg ∈ st.stageOutReg then
        .ok { st with depth := st.depth + 1 }
      else
        match floatOpArity name with
        | some numOps =>
            if st.depth < numOps then .error "IndexError: pop from empty list"
            else
              let st := { st with depth := st.depth - numOps }
              let st :=
                if name = "onehot" then
                  { st with argDict := dictInsert arg [.P] st.argDict }
                else st
              if isLastArg then
                .ok { st with stageOutReg := arg :: st.stageOutReg }
              else
                .ok { st with depth := st.depth + 1 }
        | none =>
            if isReductionOp name then
              -- loop end condition; added regardless of duplicate reduction stage
              let st := { st with argDict := dictInsert arg [.I] st.argDict }
              match st.depth with
              | 0 => .error "IndexError: pop from empty list"
              | d + 1 => .ok { st with depth := d, stageOutReg := arg :: st.stageOutReg }
            else
              .error "Bad op type."

/-- Process one stage's stack in order. -/
def cgStage (isLastStage : Bool) (stageIdx : Nat) (st : CGState)
    (stack : List TypeArg) : Except String CGState :=
  stack.enum.foldlM
    (fun st p => cgArg isLastStage stageIdx p.1 (p.1 = stack.length - 1) st p.2) st

/-- One entry of the final signature loop (lines 993-1007): consume the
entry's `arg_dict` slots on first use, or emit a single unused `i` slot
for a reduction whose slots were never recorded (deduplicated away). -/
def sigFinalStep (acc : List Slot × List (TypeArg × List Slot)) (arg : TypeArg) :
    List Slot × List (TypeArg × List Slot) :=
  match acc.2.find? (fun p => p.1 = arg) with
  | some entry => (acc.1 ++ entry.2, acc.2.eraseP (fun p => p.1 = arg))
  | none =>
      if isReductionOp ((arg.opName?).getD "") then (acc.1 ++ [.I], acc.2)
      else acc

/-- The positional argument signature `_get_compound_kernel` prepares
(lines 993-1007 plus the stage loop): a leading `P` for `rand_state`,
then for each entry of `type_args` in original order its `arg_dict`
slots (consumed on first use), or a single unused `i` slot when the entry
is a deduplicated-away reduction. -/
def compoundSigSlots (fuel : Nat) (ta : List TypeArg) : Except String (List Slot) := do
  let (_, stages) ← compoundStages fuel ta
  let n := stages.length
  let st0 : CGState := ⟨0, [], [], [], []⟩
  let st ← stages.enum.foldlM (fun st p => cgStage (p.1 = n - 1) p.1 st p.2.2) st0
  return (ta.foldl sigFinalStep ([Slot.P], st.argDict)).1

/-! ## The call driver `call_compound_kernel` -/

/-- The borrowed tensor handle (collaborator contract of spec §6).
`rounding` models `out.rounding` as a natural number with 0 falsy; the
Python value `True` is modelled as 10, which the source immediately
rewrites it to.  `takeArr` is `(take_array[0].gpudata, take_array[1])`.
`tid` is the Python object identity used for dict membership
(modelled from the spec: `GPUTensor`, defined in `nervanagpu.py` outside
`src/`, is used as a dict key, i.e. deduplication is by tensor identity
per spec §4.5.3). -/
structure TensorArg where
  tid : Nat
  shape : List Nat
  strides : List Int
  size : Nat
  dtype : String
  takeArr : Option (Nat × Nat)
  isTrans : Bool
  isContiguous : Bool
  rounding : Nat
  gpudata : Nat
  deriving DecidableEq, Repr

/-- One positional argument of `call_compound_kernel`: a tensor handle, a
numeric constant (Python converts `int`/`float` to `float`, modelled as
`Rat`), or an operation dict with its optional `axis` and `idx` fields
(`idxPtr` is `arg["idx"].gpudata`). -/
inductive CallArg where
  | tensor (t : TensorArg)
  | const (v : Rat)
  | opd (name : String) (axis : Option Nat) (idxPtr : Option Nat)
  deriving DecidableEq, Repr

/-- The flags gathered by the classification scan (lines 1073-1119). -/
structure Classify where
  contiguous : Bool := true
  reduction : Bool := false
  broadcast : Bool := false
  transpose : Bool := false
  argminmax : Bool := false
  takeop : Bool := false
  axis : Nat := 1
  deriving DecidableEq, Repr

/-- One step of the classification scan (lines 1085-1114): reduction
descriptors must carry axis 0 or 1 and agree with any previously
established reduction axis; tensors set the broadcast / transpose /
take / contiguity flags through the source's `elif` chain. -/
def classifyStep (c : Classify) (arg : CallArg) : Except String Classify :=
  match arg with
  | .opd name ax _ =>
      if isReductionOp name then
        let c := if isArgMinMax name then { c with argminmax := true } else c
        if ax ≠ some 0 ∧ ax ≠ some 1 then
          .error "Only reduction along an axis currently supported"
        else if c.reduction then
          if ax ≠ some c.axis then
            .error "Reduction only allowed along one axis per kernel."
          else .ok c
        else .ok { c with reduction := true, axis := ax.getD 1 }
      else if name = "onehot" then .ok { c with takeop := true }
      else .ok c
  | .tensor t =>
      if t.shape.length < 2 ∨
          (t.shape.length = 2 ∧ (t.shape.getD 0 0 = 1 ∨ t.shape.getD 1 0 = 1)) then
        .ok { c with broadcast := true }
      else if t.isTrans then .ok { c with transpose := true }
      else if t.takeArr.isSome then .ok { c with takeop := true }
      else if ¬ t.isContiguous then .ok { c with contiguous := false }
      else .ok c
  | .const _ => .ok c

/-- One runtime kernel argument, tagged by its slot kind. -/
inductive KArg where
  | ptr (p : Nat)
  | intv (n : Int)
  | fltv (v : Rat)
  deriving DecidableEq, Repr

/-- The slot kind of a runtime argument. -/
def KArg.slot : KArg → Slot
  | .ptr _ => .P
  | .intv _ => .I
  | .fltv _ => .F

/-- Indexing a pair by a Python index in `{0,1}`. -/
def getAx (p : Nat × Nat) (i : Nat) : Nat := if i = 0 then p.1 else p.2

/-- Writing a pair at a Python index in `{0,1}`. -/
def setAx (p : Int × Int) (i : Nat) (v : Int) : Int × Int :=
  if i = 0 then (v, p.2) else (p.1, v)

/-- Shape and (stride-order-reversed) strides chosen for a tensor operand
(lines 1124-1137): native 2-D dimensions for complex operations — rank
other than 2 is a fatal error — or the synthetic fast elementwise
decomposition otherwise. -/
def tensorShapeStrides (c : Classify) (t : TensorArg) :
    Except String ((Nat × Nat) × (Int × Int)) :=
  if c.broadcast ∨ c.reduction ∨ c.transpose ∨ c.takeop ∨ ¬ c.contiguous then
    if t.shape.length = 2 then
      let shape := (t.shape.getD 0 0, t.shape.getD 1 0)
      let strides := (t.strides.getD 0 0, t.strides.getD 1 0)
      .ok (shape, if c.axis = 1 then strides else (strides.2, strides.1))
    else
      .error "Operations that are not simple elementwise are only currently supported in 2 dimensions."
  else
    let shape := fastEwShape t.size
    let strides := fastEwStrides t.size
    .ok (shape, if c.axis = 1 then strides else (strides.2, strides.1))

/-- State of the main argument loop of `call_compound_kernel`. -/
structure DrvState where
  out : Option TensorArg := none
  argCnt : Nat := 0
  opCnt : Nat := 0
  arrayIds : List (Nat × Nat) := []
  constIds : List (Rat × Nat) := []
  kernelArgs : List KArg := []
  typeArgs : List TypeArg := []
  shapeStack : List (Nat × Nat) := []
  threads : Nat := 32
  redDepth : Nat := 0
  maxShape : Option (Nat × Nat) := none
  deriving Repr

/-- The `max_shape` unification of one popped operand shape against the
accumulator (lines 1206-1218): equal axis sizes pass, a 1 broadcasts,
anything else is a fatal `TypeError`. -/
def unifyShape (maxShape : Nat × Nat) (shape : Nat × Nat) :
    Except String (Nat × Nat) := do
  let unifyAxis : Nat → Nat → Except String Nat := fun m s =>
    if s ≠ m then
      if s = 1 ∨ m = 1 then .ok (Nat.max m s)
      else .error "Input shape not compatible"
    else .ok m
  let m0 ← unifyAxis maxShape.1 shape.1
  let m1 ← unifyAxis maxShape.2 shape.2
  return (m0, m1)

/-- Pop `numOps` shapes and unify them (the `for op_num in range(...)`
loop); an empty shape stack surfaces Python's `IndexError`. -/
def popUnify (numOps : Nat) (stack : List (Nat × Nat)) :
    Except String ((Nat × Nat) × List (Nat × Nat)) :=
  match numOps with
  | 0 => .ok ((1, 1), stack)
  | 1 =>
      match stack with
      | s :: rest => do
          let m ← unifyShape (1, 1) s
          return (m, rest)
      | [] => .error "IndexError: pop from empty list"
  | 2 =>
      match stack with
      | s1 :: s2 :: rest => do
          let m ← unifyShape (1, 1) s1
          let m2 ← unifyShape m s2
          return (m2, rest)
      | _ => .error "IndexError: pop from empty list"
  | _ + 3 => .error "arity above 2 cannot occur in _float_ops"

/-- The thread-count update performed inside the `assign` branch
(lines 1239-1249). -/
def assignThreads (c : Classify) (redDepth : Nat) (maxShape1 : Nat)
    (threads : Nat) : Nat :=
  if c.reduction ∧ ¬ c.argminmax then
    if redDepth ≥ 4096 then 1024
    else if redDepth ≥ 2048 then 512
    else if redDepth ≥ 1024 then 256
    else if redDepth ≥ 512 then 128
    else if redDepth ≥ 256 then 64
    else threads
  else if ¬ (c.reduction ∨ c.transpose) ∧ maxShape1 ≥ 512 then 256
  else threads

/-- One step of the main loop of `call_compound_kernel`
(lines 1121-1289). -/
def driverStep (c : Classify) (st : DrvState) (arg : CallArg) :
    Except String DrvState :=
  match arg with
  | .tensor t => do
      let (shape, strides0) ← tensorShapeStrides c t
      match st.arrayIds.lookup t.tid with
      | some indx =>
          let takeAxis :=
            match t.takeArr with
            | some ta => if c.axis ≠ 1 then 2 - ta.2 else ta.2 + 1
            | none => 0
          return { st with
            typeArgs := st.typeArgs ++ [.tensor indx t.dtype takeAxis]
            shapeStack := shape :: st.shapeStack }
      | none =>
          let indx := st.argCnt
          let st := match st.out with
            | none => { st with out := some t }
            | some _ => { st with arrayIds := (t.tid, indx) :: st.arrayIds }
          let st := { st with argCnt := st.argCnt + 1 }
          -- support broadcast: zero the stride of any singleton axis
          let strides1 := if shape.1 = 1 then setAx strides0 (1 - c.axis) 0 else strides0
          let strides2 := if shape.2 = 1 then setAx strides1 c.axis 0 else strides1
          let st := { st with kernelArgs := st.kernelArgs ++
            ([KArg.ptr t.gpudata, KArg.intv strides2.1, KArg.intv strides2.2] ++
              match t.takeArr with
              | some ta => [KArg.ptr ta.1]
              | none => []) }
          let takeAxis :=
            match t.takeArr with
            | some ta => if c.axis ≠ 1 then 2 - ta.2 else ta.2 + 1
            | none => 0
          return { st with
            typeArgs := st.typeArgs ++ [.tensor indx t.dtype takeAxis]
            shapeStack := shape :: st.shapeStack }
  | .const v =>
      match st.constIds.lookup v with
      | some indx =>
          .ok { st with
            typeArgs := st.typeArgs ++ [.const indx]
            shapeStack := (1, 1) :: st.shapeStack }
      | none =>
          let indx := st.argCnt
          .ok { st with
            constIds := (v, indx) :: st.constIds
            argCnt := st.argCnt + 1
            kernelArgs := st.kernelArgs ++ [KArg.fltv v]
            typeArgs := st.typeArgs ++ [.const indx]
            shapeStack := (1, 1) :: st.shapeStack }
  | .opd name axOpt idxPtr =>
      match floatOpArity name with
      | some numOps => do
          let (maxShape, stack) ← popUnify numOps st.shapeStack
          let st := { st with shapeStack := stack, maxShape := some maxShape }
          if name = "assign" then do
            -- the axis dim is the thread loop stop condition
            let st := { st with kernelArgs := st.kernelArgs ++
              [KArg.intv (getAx maxShape c.axis)] }
            match st.out with
            | none => .error "AttributeError: NoneType has no attribute rounding"
            | some out => do
                let rounding := out.rounding
                let st ←
                  if rounding > 0 then
                    let r :=
                      if out.dtype = "f4" then Nat.min rounding 15
                      else if out.dtype = "f2" then Nat.min rounding 10
                      else rounding
                    pure { st with kernelArgs := st.kernelArgs ++
                      [KArg.intv (Nat.max r 1)] }
                  else pure st
                let threads := assignThreads c st.redDepth maxShape.2 st.threads
                return { st with
                  threads := threads
                  typeArgs := st.typeArgs ++
                    [.opa "assign" st.opCnt [if rounding > 0 then 1 else 0, threads]]
                  opCnt := st.opCnt + 1 }
          else if name = "onehot" then do
            match axOpt, idxPtr with
            | some hotAx, some ptr =>
                -- flip the one hot axis if reducing axis=0
                let hot := if c.axis ≠ 0 then hotAx else 1 - hotAx
                return { st with
                  typeArgs := st.typeArgs ++ [.opa "onehot" st.opCnt [hot]]
                  shapeStack := maxShape :: st.shapeStack
                  kernelArgs := st.kernelArgs ++ [KArg.ptr ptr]
                  opCnt := st.opCnt + 1 }
            | _, _ => .error "KeyError"
          else
            return { st with
              typeArgs := st.typeArgs ++ [.opa name st.opCnt []]
              shapeStack := maxShape :: st.shapeStack
              opCnt := st.opCnt + 1 }
      | none =>
          if isReductionOp name then
            match st.shapeStack with
            | [] => .error "IndexError: pop from empty list"
            | shape :: rest =>
                let d := getAx shape c.axis
                .ok { st with
                  redDepth := Nat.max st.redDepth d
                  kernelArgs := st.kernelArgs ++ [KArg.intv d]
                  typeArgs := st.typeArgs ++ [.opa name st.opCnt []]
                  shapeStack :=
                    (if c.axis = 0 then (1, shape.2) else (shape.1, 1)) :: rest
                  opCnt := st.opCnt + 1 }
          else .error "not a valid operation"

/-- The driver's result: everything `call_compound_kernel` goes on to use
for the cache lookup and the launch. -/
structure DrvOut where
  typeArgs : List TypeArg
  kernelArgs : List KArg
  threads : Nat
  redDepth : Nat
  maxShape : Nat × Nat
  cls : Classify
  out : TensorArg
  deriving Repr

/-- `call_compound_kernel` (lines 1058-1322) up to the cache lookup and
launch: classification scan, then the argument loop; the launch phase
dereferences `out` and `max_shape`, which fail like the Python if no
tensor or no float operation was seen. -/
def callDriver (randState : Nat) (args : List CallArg) : Except String DrvOut := do
  let c ← args.foldlM classifyStep {}
  let st ← args.foldlM (driverStep c) { kernelArgs := [KArg.ptr randState] }
  match st.out, st.maxShape with
  | some out, some maxShape =>
      return ⟨st.typeArgs, st.kernelArgs, st.threads, st.redDepth, maxShape, c, out⟩
  | none, _ => .error "AttributeError: NoneType has no attribute backend"
  | _, none => .error "NameError: max_shape is not defined"

/-! ## The memoization cache -/

/-- `@context_dependent_memoize` on `_get_compound_kernel`: a process-wide
map from the `type_args` tuple to the compiled kernel.  `memoGet` returns
the kernel id, the updated cache, and whether a compile happened. -/
def memoGet (cache : List (List TypeArg × Nat)) (ta : List TypeArg) (freshId : Nat) :
    Nat × List (List TypeArg × Nat) × Bool :=
  match cache.lookup ta with
  | some k => (k, cache, false)
  | none => (freshId, (ta, freshId) :: cache, true)

/-! ## Auxiliary notions used only to state and prove the theorems -/

/-- Net effect of one `_build_tree` token on the operand stack depth;
`none` marks a pop past the end of the stack (Python `IndexError`). -/
def tokenStep (d : Nat) (a : TypeArg) : Option Nat :=
  match a.opName? with
  | some name =>
    match floatOpArity name with
    | some 0 => some (d + 1)
    | some 1 => if d < 1 then none else some d
    | some 2 => if d < 2 then none else some (d - 1)
    | some (_ + 3) => none
    | none =>
        if isReductionOp name then (if d = 0 then none else some d)
        else some (d + 1)
  | none => some (d + 1)

/-- The operand-stack depth left by a postfix stream, `none` on underflow. -/
def streamDepth (ta : List TypeArg) : Option Nat :=
  ta.foldl (fun od a => od.bind (fun d => tokenStep d a)) (some 0)

/-- Decidable statement of claim C8 as written: every node's reduction
count equals the number of reduction nodes *strictly beneath* it. -/
def allNodesRedStrictBelow : PTree → Bool
  | .leaf _ => true
  | .node0 _ _ r => r == 0
  | .node1 _ _ r c => (r == countReds c) && allNodesRedStrictBelow c
  | .node2 _ _ r c d =>
      (r == countReds c + countReds d) && allNodesRedStrictBelow c &&
        allNodesRedStrictBelow d

/-- What the code actually stores: every node's reduction count equals
the number of reduction nodes in its own subtree, itself included. -/
def allNodesRedEqCount : PTree → Bool
  | .leaf _ => true
  | .node0 a s r => r == countReds (.node0 a s r)
  | .node1 a s r c => (r == countReds (.node1 a s r c)) && allNodesRedEqCount c
  | .node2 a s r c d =>
      (r == countReds (.node2 a s r c d)) && allNodesRedEqCount c &&
        allNodesRedEqCount d

/-- Decidable statement of claim C9 as written: an elementwise node's
scalar flag is the AND of its children's scalar-ness (so a 0-arity node is
scalar); reductions are unconditionally scalar. -/
def allNodesScalarClaim : PTree → Bool
  | .leaf _ => true
  | .node0 _ s _ => s == true
  | .node1 a s _ c =>
      (if isReductionOp ((a.opName?).getD "") then s == true
       else s == (true && !operandClearsScalar c)) && allNodesScalarClaim c
  | .node2 _ s _ c d =>
      (s == (true && !operandClearsScalar d && !operandClearsScalar c)) &&
        allNodesScalarClaim c && allNodesScalarClaim d

/-- What the code actually stores: as the claim says except that 0-arity
elementwise ops default to non-scalar (`numops > 0`). -/
def allNodesScalarCode : PTree → Bool
  | .leaf _ => true
  | .node0 _ s _ => s == false
  | .node1 a s _ c =>
      (if isReductionOp ((a.opName?).getD "") then s == true
       else s == (true && !operandClearsScalar c)) && allNodesScalarCode c
  | .node2 _ s _ c d =>
      (s == (true && !operandClearsScalar d && !operandClearsScalar c)) &&
        allNodesScalarCode c && allNodesScalarCode d

/-! ## Theorems: fast elementwise dimension selection (C4) -/

theorem find_desc_greatest {p : Nat → Bool} :
    ∀ (l : List Nat) (a : Nat), List.Sorted (fun a b : Nat => a > b) l →
      l.find? p = some a → ∀ b ∈ l, p b → b ≤ a := by
  intro l
  induction l with
  | nil => intro a _ h; simp at h
  | cons x t ih =>
    intro a hs hf b hb hpb
    rw [List.find?_cons] at hf
    cases hx : p x with
    | true =>
      rw [hx] at hf
      cases hf
      rcases List.mem_cons.mp hb with rfl | hbt
      · exact le_refl b
      · exact le_of_lt (List.rel_of_sorted_cons hs b hbt)
    | false =>
      rw [hx] at hf
      rcases List.mem_cons.mp hb with rfl | hbt
      · rw [hx] at hpb; exact absurd hpb (by simp)
      · exact ih a hs.of_cons hf b hbt hpb

theorem mem_ew1Chain {d : Nat} : d ∈ ew1Chain ↔ 1 ≤ d ∧ d ≤ 255 := by
  simp only [ew1Chain, List.mem_map, List.mem_range]
  constructor
  · rintro ⟨i, hi, rfl⟩; omega
  · rintro ⟨h1, h2⟩; exact ⟨255 - d, by omega, by omega⟩

theorem ew1Chain_sorted : List.Sorted (fun a b : Nat => a > b) ew1Chain := by
  have h0 := List.pairwise_lt_range 255
  have h := (List.Pairwise.and_mem).mp h0
  exact List.Pairwise.map (fun i => 255 - i)
    (fun a b hab => by
      rcases hab with ⟨ha, hb, hlt⟩
      rw [List.mem_range] at ha hb
      show 255 - a > 255 - b
      omega) h

theorem ew32Chain_sorted : List.Sorted (fun a b : Nat => a > b) ew32Chain := by
  decide

theorem fastEwSize_eq_find32 {size e : Nat}
    (hf : ew32Chain.find? (fun d => size % d = 0) = some e) :
    fastEwSize size = e := by
  have hall : ∀ d ∈ ew32Chain, 0 < d := by decide
  have hepos : 0 < e := hall e (List.mem_of_find?_eq_some hf)
  simp only [fastEwSize, ewLoop32, ewLoop1, hf, Option.getD_some]
  rw [if_neg (by omega)]

theorem fastEwSize_eq_find1 {size e2 : Nat}
    (hf : ew32Chain.find? (fun d => size % d = 0) = none)
    (hf1 : ew1Chain.find? (fun d => size % d = 0) = some e2) :
    fastEwSize size = e2 := by
  have hb := mem_ew1Chain.mp (List.mem_of_find?_eq_some hf1)
  simp only [fastEwSize, ewLoop32, ewLoop1, hf, hf1, Option.getD_some, Option.getD_none]
  rw [if_pos trivial, if_neg (by omega)]

/-- **C4** (confirmed).  For every positive `size`, `_get_fast_ew_dims`
returns `shape = (size // e, e)` where `e` divides `size` — so
`shape[0] * shape[1] == size` always, and the non-divisor `255` fallback
is never reached — and `e` is the largest divisor of `size` on the
32-step chain 256, 224, …, 32 when that chain contains a divisor, and
otherwise the largest divisor of `size` that is ≤ 255. -/
theorem fast_ew_dims_divisor_scan (size : Nat) (hpos : 0 < size) :
    fastEwShape size = (size / fastEwSize size, fastEwSize size) ∧
    fastEwSize size ∣ size ∧
    (fastEwShape size).1 * (fastEwShape size).2 = size ∧
    ((∃ d ∈ ew32Chain, d ∣ size) →
      fastEwSize size ∈ ew32Chain ∧ ∀ d ∈ ew32Chain, d ∣ size → d ≤ fastEwSize size) ∧
    ((∀ d ∈ ew32Chain, ¬ d ∣ size) →
      fastEwSize size ≤ 255 ∧
        ∀ d, 0 < d → d ≤ 255 → d ∣ size → d ≤ fastEwSize size) := by
  have key : fastEwSize size ∣ size ∧
      ((∃ d ∈ ew32Chain, d ∣ size) →
        fastEwSize size ∈ ew32Chain ∧ ∀ d ∈ ew32Chain, d ∣ size → d ≤ fastEwSize size) ∧
      ((∀ d ∈ ew32Chain, ¬ d ∣ size) →
        fastEwSize size ≤ 255 ∧
          ∀ d, 0 < d → d ≤ 255 → d ∣ size → d ≤ fastEwSize size) := by
    cases hf : ew32Chain.find? (fun d => size % d = 0) with
    | some e =>
      have heq := fastEwSize_eq_find32 hf
      have he : size % e = 0 := by simpa using List.find?_some hf
      have hmem := List.mem_of_find?_eq_some hf
      rw [heq]
      refine ⟨Nat.dvd_of_mod_eq_zero he, ?_, ?_⟩
      · intro _
        refine ⟨hmem, fun d hd hddvd => ?_⟩
        exact find_desc_greatest ew32Chain e ew32Chain_sorted hf d hd
          (by simp [Nat.eq_zero_of_dvd_of_lt, Nat.mod_eq_zero_of_dvd hddvd])
      · intro hnone
        exact absurd (Nat.dvd_of_mod_eq_zero he) (hnone e hmem)
    | none =>
      cases hf1 : ew1Chain.find? (fun d => size % d = 0) with
      | none =>
        exfalso
        have h1 : (1 : Nat) ∈ ew1Chain := mem_ew1Chain.mpr (by omega)
        have := List.find?_eq_none.mp hf1 1 h1
        simp [Nat.mod_one] at this
      | some e2 =>
        have heq := fastEwSize_eq_find1 hf hf1
        have he : size % e2 = 0 := by simpa using List.find?_some hf1
        have hb := mem_ew1Chain.mp (List.mem_of_find?_eq_some hf1)
        rw [heq]
        refine ⟨Nat.dvd_of_mod_eq_zero he, ?_, ?_⟩
        · rintro ⟨d, hd, hdvd⟩
          exfalso
          have := List.find?_eq_none.mp hf d hd
          simp [Nat.mod_eq_zero_of_dvd hdvd] at this
        · intro _
          refine ⟨hb.2, fun d hd0 hd255 hddvd => ?_⟩
          exact find_desc_greatest ew1Chain e2 ew1Chain_sorted hf1 d
            (mem_ew1Chain.mpr ⟨hd0, hd255⟩)
            (by simp [Nat.mod_eq_zero_of_dvd hddvd])
  refine ⟨rfl, key.1, ?_, key.2.1, key.2.2⟩
  show size / fastEwSize size * fastEwSize size = size
  exact Nat.div_mul_cancel key.1

theorem fast_ew_dims_divisor_scan_witness : fastEwSize 300 ∣ 300 :=
  (fast_ew_dims_divisor_scan 300 (by norm_num)).2.1


/-! ## Theorems: the expression builder (C6, C8, C9) -/

theorem floatOp_arity_not_reduction {s : String} {k : Nat}
    (h : floatOpArity s = some k) : isReductionOp s = false := by
  cases hr : isReductionOp s with
  | false => rfl
  | true =>
    exfalso
    unfold isReductionOp at hr
    split at hr <;> simp_all [floatOpArity]

theorem buildStep_depth (stack : List PTree) (a : TypeArg) :
    match tokenStep stack.length a with
    | none => ∃ e, buildStep stack a = .error e
    | some n => ∃ st, buildStep stack a = .ok st ∧ st.length = n := by
  unfold tokenStep buildStep
  cases a with
  | tensor idx dt ta => simp [TypeArg.opName?]
  | const i => simp [TypeArg.opName?]
  | opa name cnt extra =>
    simp only [TypeArg.opName?]
    cases hf : floatOpArity name with
    | some k =>
      match k with
      | 0 => simp [floatOpStep]
      | 1 =>
        cases stack with
        | nil => simp [floatOpStep]
        | cons o1 rest => simp [floatOpStep]
      | 2 =>
        match stack with
        | [] => simp [floatOpStep]
        | [o1] => simp [floatOpStep]
        | o1 :: o2 :: rest =>
          simp only [floatOpStep, List.length_cons]
          rw [if_neg (by omega)]
          exact ⟨_, rfl, by simp⟩
      | (m + 3) => simp [floatOpStep]
    | none =>
      cases hr : isReductionOp name with
      | true =>
        cases stack with
        | nil => simp
        | cons o rest => simp
      | false => simp

theorem foldlM_buildStep_depth :
    ∀ (ta : List TypeArg) (stack : List PTree),
      match ta.foldl (fun od a => od.bind (fun d => tokenStep d a)) (some stack.length) with
      | none => ∃ e, ta.foldlM buildStep stack = .error e
      | some n => ∃ st, ta.foldlM buildStep stack = .ok st ∧ st.length = n := by
  intro ta
  induction ta with
  | nil => intro stack; exact ⟨stack, rfl, rfl⟩
  | cons a rest ih =>
    intro stack
    rw [List.foldl_cons, List.foldlM_cons]
    have hd := buildStep_depth stack a
    rw [show ((some stack.length).bind fun d => tokenStep d a) = tokenStep stack.length a from rfl]
    cases ht : tokenStep stack.length a with
    | none =>
      rw [ht] at hd
      obtain ⟨e, he⟩ := hd
      rw [he]
      have : (none : Option Nat) = rest.foldl (fun od a => od.bind (fun d => tokenStep d a)) none := by
        clear ih he ht
        induction rest with
        | nil => rfl
        | cons b bs ihb => rw [List.foldl_cons]; simpa using ihb
      rw [← this]
      exact ⟨e, rfl⟩
    | some n =>
      rw [ht] at hd
      obtain ⟨st, hst, hlen⟩ := hd
      rw [hst]
      have := ih st
      rw [hlen] at this
      simpa using this

theorem streamDepth_none_foldl_none :
    ∀ (rest : List TypeArg),
      rest.foldl (fun od a => od.bind (fun d => tokenStep d a)) (none : Option Nat) = none := by
  intro rest
  induction rest with
  | nil => rfl
  | cons b bs ihb => rw [List.foldl_cons]; simpa using ihb

/-- C6 amended -/
theorem build_tree_underflow_fatal (ta : List TypeArg) :
    (streamDepth ta = none → ∃ e, buildTree ta = .error e) ∧
    (∀ n, streamDepth ta = some n → 0 < n → ∃ t, buildTree ta = .ok t) := by
  have key := foldlM_buildStep_depth ta []
  constructor
  · intro hnone
    unfold streamDepth at hnone
    rw [show ([] : List PTree).length = 0 from rfl] at key
    rw [hnone] at key
    obtain ⟨e, he⟩ := key
    exact ⟨e, by unfold buildTree; rw [he]; rfl⟩
  · intro n hsome hpos
    unfold streamDepth at hsome
    rw [show ([] : List PTree).length = 0 from rfl] at key
    rw [hsome] at key
    obtain ⟨st, hst, hlen⟩ := key
    have hne : st ≠ [] := by intro h; rw [h] at hlen; simp at hlen; omega
    obtain ⟨t, ht⟩ := Option.isSome_iff_exists.mp (List.getLast?_isSome.mpr hne)
    refine ⟨t, ?_⟩
    unfold buildTree
    rw [hst]
    show (match st.getLast? with
      | some t => Except.ok t
      | none => Except.error "IndexError: list index out of range") = Except.ok t
    rw [ht]

theorem build_tree_underflow_witness :
    streamDepth [TypeArg.opa "add" 0 []] = none ∧
      ∃ e, buildTree [TypeArg.opa "add" 0 []] = .error e :=
  ⟨rfl, (build_tree_underflow_fatal [TypeArg.opa "add" 0 []]).1 rfl⟩

/-- C6 counterexample: leftovers return the stack bottom, no error -/
theorem build_tree_leftovers_cex :
    streamDepth [TypeArg.tensor 0 "f4" 0, TypeArg.tensor 1 "f4" 0] = some 2 ∧
    buildTree [TypeArg.tensor 0 "f4" 0, TypeArg.tensor 1 "f4" 0] =
      .ok (PTree.leaf (TypeArg.tensor 0 "f4" 0)) := ⟨rfl, rfl⟩

theorem foldlM_buildStep_inv {P : PTree → Prop}
    (hstep : ∀ stack a st', (∀ s ∈ stack, P s) → buildStep stack a = .ok st' →
      ∀ s ∈ st', P s) :
    ∀ (ta : List TypeArg) (stack st' : List PTree), (∀ s ∈ stack, P s) →
      ta.foldlM buildStep stack = .ok st' → ∀ s ∈ st', P s := by
  intro ta
  induction ta with
  | nil =>
    intro stack st' hstack hok
    cases hok
    exact hstack
  | cons a rest ih =>
    intro stack st' hstack hok
    rw [List.foldlM_cons] at hok
    cases hb : buildStep stack a with
    | error e => rw [hb] at hok; exact Except.noConfusion hok
    | ok mid =>
      rw [hb] at hok
      exact ih mid st' (hstep stack a mid hstack hb) hok

theorem mem_of_getLastQ {l : List PTree} {t : PTree} (h : l.getLast? = some t) :
    t ∈ l := by
  have hx : t ∈ l.getLast? := by rw [Option.mem_def]; exact h
  obtain ⟨hh, heq⟩ := List.mem_getLast?_eq_getLast hx
  rw [heq]
  exact List.getLast_mem hh

theorem buildTree_result_inv {P : PTree → Prop}
    (hstep : ∀ stack a st', (∀ s ∈ stack, P s) → buildStep stack a = .ok st' →
      ∀ s ∈ st', P s) :
    ∀ (ta : List TypeArg) (t : PTree), buildTree ta = .ok t → P t := by
  intro ta t hok
  unfold buildTree at hok
  cases hf : ta.foldlM buildStep [] with
  | error e => rw [hf] at hok; exact Except.noConfusion hok
  | ok st =>
    rw [hf] at hok
    have hmem : ∀ s ∈ st, P s := foldlM_buildStep_inv hstep ta [] st (by simp) hf
    cases hl : st.getLast? with
    | none =>
      exfalso
      revert hok
      show (match st.getLast? with
        | some t => Except.ok t
        | none => (Except.error "IndexError: list index out of range" : Except String PTree)) =
          Except.ok t → False
      rw [hl]
      simp
    | some t2 =>
      have : t2 = t := by
        revert hok
        show (match st.getLast? with
          | some t => Except.ok t
          | none => (Except.error "IndexError: list index out of range" : Except String PTree)) =
            Except.ok t → t2 = t
        rw [hl]
        intro h
        cases h
        rfl
      exact this ▸ hmem t2 (mem_of_getLastQ hl)

theorem operandRed_eq_countReds {t : PTree} (h : allNodesRedEqCount t = true) :
    operandRed t = countReds t := by
  cases t with
  | leaf a => rfl
  | node0 a s r => simpa [allNodesRedEqCount, operandRed] using h
  | node1 a s r c =>
    simp only [allNodesRedEqCount, Bool.and_eq_true, beq_iff_eq] at h
    simpa [operandRed] using h.1
  | node2 a s r c d =>
    simp only [allNodesRedEqCount, Bool.and_eq_true, beq_iff_eq] at h
    simpa [operandRed] using h.1.1

theorem buildStep_red_inv :
    ∀ (stack : List PTree) (a : TypeArg) (st' : List PTree),
      (∀ s ∈ stack, allNodesRedEqCount s = true) → buildStep stack a = .ok st' →
      ∀ s ∈ st', allNodesRedEqCount s = true := by
  intro stack a st' hstack hok
  unfold buildStep at hok
  cases a with
  | tensor idx dt tk =>
    simp only [TypeArg.opName?] at hok
    cases hok
    intro s hs
    rcases List.mem_cons.mp hs with rfl | hmem
    · rfl
    · exact hstack s hmem
  | const i =>
    simp only [TypeArg.opName?] at hok
    cases hok
    intro s hs
    rcases List.mem_cons.mp hs with rfl | hmem
    · rfl
    · exact hstack s hmem
  | opa name cnt extra =>
    simp only [TypeArg.opName?] at hok
    cases hf : floatOpArity name with
    | some k =>
      rw [hf] at hok
      have hnr : isReductionOp name = false := floatOp_arity_not_reduction hf
      match k, hok with
      | 0, hok =>
        unfold floatOpStep at hok
        cases hok
        intro s hs
        rcases List.mem_cons.mp hs with rfl | hmem
        · simp [allNodesRedEqCount, countReds, TypeArg.opName?, hnr]
        · exact hstack s hmem
      | 1, hok =>
        unfold floatOpStep at hok
        match stack, hok with
        | o1 :: rest, hok =>
          cases hok
          intro s hs
          rcases List.mem_cons.mp hs with rfl | hmem
          · have hc := hstack o1 (by simp)
            simp [allNodesRedEqCount, countReds, TypeArg.opName?, hnr, hc,
              operandRed_eq_countReds hc]
          · exact hstack s (by simp [hmem])
      | 2, hok =>
        unfold floatOpStep at hok
        match stack, hok with
        | o1 :: o2 :: rest, hok =>
          cases hok
          intro s hs
          rcases List.mem_cons.mp hs with rfl | hmem
          · have hc1 := hstack o1 (by simp)
            have hc2 := hstack o2 (by simp)
            simp [allNodesRedEqCount, countReds, TypeArg.opName?, hnr, hc1, hc2,
              operandRed_eq_countReds hc1, operandRed_eq_countReds hc2]
            omega
          · exact hstack s (by simp [hmem])
    | none =>
      rw [hf] at hok
      cases hr : isReductionOp name with
      | true =>
        rw [hr] at hok
        simp only [if_true] at hok
        match stack, hok with
        | o :: rest, hok =>
          cases hok
          intro s hs
          rcases List.mem_cons.mp hs with rfl | hmem
          · have hc := hstack o (by simp)
            simp [allNodesRedEqCount, countReds, TypeArg.opName?, hr, hc,
              operandRed_eq_countReds hc]
          · exact hstack s (by simp [hmem])
      | false =>
        rw [hr] at hok
        simp only [if_false] at hok
        cases hok
        intro s hs
        rcases List.mem_cons.mp hs with rfl | hmem
        · rfl
        · exact hstack s hmem

/-- C8 amended -/
theorem build_tree_red_counts_include_self (ta : List TypeArg) (t : PTree)
    (h : buildTree ta = .ok t) : allNodesRedEqCount t = true :=
  buildTree_result_inv buildStep_red_inv ta t h

theorem build_tree_red_counts_witness :
    buildTree [TypeArg.tensor 0 "f4" 0, TypeArg.tensor 1 "f4" 0,
      TypeArg.opa "sum" 0 [], TypeArg.opa "assign" 1 [0, 32]] =
        .ok (PTree.node2 (TypeArg.opa "assign" 1 [0, 32]) true 1
          (PTree.leaf (TypeArg.tensor 0 "f4" 0))
          (PTree.node1 (TypeArg.opa "sum" 0 []) true 1
            (PTree.leaf (TypeArg.tensor 1 "f4" 0)))) ∧
    allNodesRedEqCount (PTree.node2 (TypeArg.opa "assign" 1 [0, 32]) true 1
          (PTree.leaf (TypeArg.tensor 0 "f4" 0))
          (PTree.node1 (TypeArg.opa "sum" 0 []) true 1
            (PTree.leaf (TypeArg.tensor 1 "f4" 0)))) = true :=
  ⟨rfl, build_tree_red_counts_include_self
    [TypeArg.tensor 0 "f4" 0, TypeArg.tensor 1 "f4" 0,
      TypeArg.opa "sum" 0 [], TypeArg.opa "assign" 1 [0, 32]] _ rfl⟩

/-- C8 counterexample -/
theorem build_tree_red_count_strict_below_cex :
    buildTree [TypeArg.tensor 1 "f4" 0, TypeArg.opa "sum" 0 []] =
      .ok (PTree.node1 (TypeArg.opa "sum" 0 []) true 1
        (PTree.leaf (TypeArg.tensor 1 "f4" 0))) ∧
    allNodesRedStrictBelow (PTree.node1 (TypeArg.opa "sum" 0 []) true 1
        (PTree.leaf (TypeArg.tensor 1 "f4" 0))) = false := ⟨rfl, rfl⟩

theorem buildStep_scalar_inv :
    ∀ (stack : List PTree) (a : TypeArg) (st' : List PTree),
      (∀ s ∈ stack, allNodesScalarCode s = true) → buildStep stack a = .ok st' →
      ∀ s ∈ st', allNodesScalarCode s = true := by
  intro stack a st' hstack hok
  unfold buildStep at hok
  cases a with
  | tensor idx dt tk =>
    simp only [TypeArg.opName?] at hok
    cases hok
    intro s hs
    rcases List.mem_cons.mp hs with rfl | hmem
    · rfl
    · exact hstack s hmem
  | const i =>
    simp only [TypeArg.opName?] at hok
    cases hok
    intro s hs
    rcases List.mem_cons.mp hs with rfl | hmem
    · rfl
    · exact hstack s hmem
  | opa name cnt extra =>
    simp only [TypeArg.opName?] at hok
    cases hf : floatOpArity name with
    | some k =>
      rw [hf] at hok
      have hnr : isReductionOp name = false := floatOp_arity_not_reduction hf
      match k, hok with
      | 0, hok =>
        unfold floatOpStep at hok
        cases hok
        intro s hs
        rcases List.mem_cons.mp hs with rfl | hmem
        · simp [allNodesScalarCode]
        · exact hstack s hmem
      | 1, hok =>
        unfold floatOpStep at hok
        match stack, hok with
        | o1 :: rest, hok =>
          cases hok
          intro s hs
          rcases List.mem_cons.mp hs with rfl | hmem
          · have hc := hstack o1 (by simp)
            simp [allNodesScalarCode, TypeArg.opName?, hnr, hc]
          · exact hstack s (by simp [hmem])
      | 2, hok =>
        unfold floatOpStep at hok
        match stack, hok with
        | o1 :: o2 :: rest, hok =>
          cases hok
          intro s hs
          rcases List.mem_cons.mp hs with rfl | hmem
          · have hc1 := hstack o1 (by simp)
            have hc2 := hstack o2 (by simp)
            simp [allNodesScalarCode, TypeArg.opName?, hc1, hc2]
          · exact hstack s (by simp [hmem])
    | none =>
      rw [hf] at hok
      cases hr : isReductionOp name with
      | true =>
        rw [hr] at hok
        simp only [if_true] at hok
        match stack, hok with
        | o :: rest, hok =>
          cases hok
          intro s hs
          rcases List.mem_cons.mp hs with rfl | hmem
          · have hc := hstack o (by simp)
            simp [allNodesScalarCode, TypeArg.opName?, hr, hc]
          · exact hstack s (by simp [hmem])
      | false =>
        rw [hr] at hok
        simp only [if_false] at hok
        cases hok
        intro s hs
        rcases List.mem_cons.mp hs with rfl | hmem
        · rfl
        · exact hstack s hmem

/-- C9 amended -/
theorem build_tree_scalar_flags_follow_code (ta : List TypeArg) (t : PTree)
    (h : buildTree ta = .ok t) : allNodesScalarCode t = true :=
  buildTree_result_inv buildStep_scalar_inv ta t h

theorem build_tree_scalar_flags_witness :
    buildTree [TypeArg.tensor 0 "f4" 0, TypeArg.tensor 1 "f4" 0,
      TypeArg.opa "sqrt" 0 [], TypeArg.opa "assign" 1 [0, 32]] =
        .ok (PTree.node2 (TypeArg.opa "assign" 1 [0, 32]) false 0
          (PTree.leaf (TypeArg.tensor 0 "f4" 0))
          (PTree.node1 (TypeArg.opa "sqrt" 0 []) false 0
            (PTree.leaf (TypeArg.tensor 1 "f4" 0)))) ∧
    allNodesScalarCode (PTree.node2 (TypeArg.opa "assign" 1 [0, 32]) false 0
          (PTree.leaf (TypeArg.tensor 0 "f4" 0))
          (PTree.node1 (TypeArg.opa "sqrt" 0 []) false 0
            (PTree.leaf (TypeArg.tensor 1 "f4" 0)))) = true :=
  ⟨rfl, build_tree_scalar_flags_follow_code
    [TypeArg.tensor 0 "f4" 0, TypeArg.tensor 1 "f4" 0,
      TypeArg.opa "sqrt" 0 [], TypeArg.opa "assign" 1 [0, 32]] _ rfl⟩

/-- C9 counterexample: a 0-arity op node is non-scalar -/
theorem build_tree_zero_arity_scalar_cex :
    buildTree [TypeArg.opa "rand" 0 []] =
      .ok (PTree.node0 (TypeArg.opa "rand" 0 []) false 0) ∧
    allNodesScalarClaim (PTree.node0 (TypeArg.opa "rand" 0 []) false 0) = false :=
  ⟨rfl, rfl⟩



/-! ## Theorems: the call driver (C7, C3, C5) -/

/-- The axis fields of all reduction descriptors, in order. -/
def redAxisFields (args : List CallArg) : List (Option Nat) :=
  args.filterMap fun a =>
    match a with
    | .opd name ax _ => if isReductionOp name then some ax else none
    | _ => none

theorem classifyStep_nonred {c : Classify} {a : CallArg}
    (h : (match a with
          | .opd name _ _ => isReductionOp name = false
          | _ => True)) :
    ∃ c2, classifyStep c a = .ok c2 ∧ c2.reduction = c.reduction ∧ c2.axis = c.axis := by
  cases a with
  | tensor t =>
    simp only [classifyStep]
    split_ifs <;> exact ⟨_, rfl, rfl, rfl⟩
  | const v => exact ⟨c, rfl, rfl, rfl⟩
  | opd name ax ip =>
    simp only [classifyStep, h, Bool.false_eq_true, if_false]
    split_ifs <;> exact ⟨_, rfl, rfl, rfl⟩

theorem classifyFold_nonred_cons {c : Classify} {a : CallArg} {rest : List CallArg}
    (hm : (match a with
          | .opd name _ _ => isReductionOp name = false
          | _ => True))
    (ih : ∀ (c : Classify),
      ((∃ f ∈ redAxisFields rest, f ≠ some 0 ∧ f ≠ some 1) ∨
       (∃ f ∈ redAxisFields rest, ∃ g ∈ redAxisFields rest, f ≠ g) ∨
       (c.reduction = true ∧ ∃ f ∈ redAxisFields rest, f ≠ some c.axis)) →
      ∃ e, rest.foldlM classifyStep c = .error e)
    (h : (∃ f ∈ redAxisFields rest, f ≠ some 0 ∧ f ≠ some 1) ∨
       (∃ f ∈ redAxisFields rest, ∃ g ∈ redAxisFields rest, f ≠ g) ∨
       (c.reduction = true ∧ ∃ f ∈ redAxisFields rest, f ≠ some c.axis)) :
    ∃ e, (a :: rest).foldlM classifyStep c = .error e := by
  rw [List.foldlM_cons]
  obtain ⟨c2, hc2, hc2red, hc2axis⟩ := classifyStep_nonred hm
  rw [hc2]
  show ∃ e, Except.bind (Except.ok c2) (fun x => rest.foldlM classifyStep x) = .error e
  simp only [Except.bind]
  apply ih
  rcases h with h1 | h2 | ⟨h3, hrest⟩
  · exact Or.inl h1
  · exact Or.inr (Or.inl h2)
  · exact Or.inr (Or.inr ⟨by rw [hc2red]; exact h3, by rw [hc2axis]; exact hrest⟩)

theorem classifyFold_error :
    ∀ (args : List CallArg) (c : Classify),
      ((∃ f ∈ redAxisFields args, f ≠ some 0 ∧ f ≠ some 1) ∨
       (∃ f ∈ redAxisFields args, ∃ g ∈ redAxisFields args, f ≠ g) ∨
       (c.reduction = true ∧ ∃ f ∈ redAxisFields args, f ≠ some c.axis)) →
      ∃ e, args.foldlM classifyStep c = .error e := by
  intro args
  induction args with
  | nil =>
    intro c h
    exfalso
    simp [redAxisFields] at h
  | cons a rest ih =>
    intro c h
    cases a with
    | tensor t =>
      have hfields : redAxisFields (CallArg.tensor t :: rest) = redAxisFields rest := by
        simp [redAxisFields]
      rw [hfields] at h
      exact classifyFold_nonred_cons trivial ih h
    | const v =>
      have hfields : redAxisFields (CallArg.const v :: rest) = redAxisFields rest := by
        simp [redAxisFields]
      rw [hfields] at h
      exact classifyFold_nonred_cons trivial ih h
    | opd name ax ip =>
      cases hr : isReductionOp name with
      | false =>
        have hfields : redAxisFields (CallArg.opd name ax ip :: rest) = redAxisFields rest := by
          simp [redAxisFields, hr]
        rw [hfields] at h
        exact classifyFold_nonred_cons (by exact hr) ih h
      | true =>
        have hfields : redAxisFields (CallArg.opd name ax ip :: rest) =
            ax :: redAxisFields rest := by
          simp [redAxisFields, hr]
        rw [hfields] at h
        rw [List.foldlM_cons]
        simp only [classifyStep, hr, if_true]
        set c1 := if isArgMinMax name then { c with argminmax := true } else c with hc1
        have hc1red : c1.reduction = c.reduction := by
          rw [hc1]; split_ifs <;> rfl
        have hc1axis : c1.axis = c.axis := by
          rw [hc1]; split_ifs <;> rfl
        by_cases hbad : ax ≠ some 0 ∧ ax ≠ some 1
        · rw [if_pos hbad]
          exact ⟨_, rfl⟩
        · rw [if_neg hbad]
          push_neg at hbad
          cases hcr : c.reduction with
          | true =>
            rw [hc1red, hcr]
            simp only [if_true]
            by_cases haxne : ax ≠ some c1.axis
            · rw [if_pos haxne]
              exact ⟨_, rfl⟩
            · rw [if_neg haxne]
              push_neg at haxne
              show ∃ e, Except.bind (Except.ok c1) (fun x => rest.foldlM classifyStep x) = .error e
              simp only [Except.bind]
              apply ih c1
              rcases h with ⟨f, hf, hbad01⟩ | ⟨f, hf, g, hg, hfg⟩ | ⟨_, f, hf, hfx⟩
              · rcases List.mem_cons.mp hf with rfl | hfr
                · exact absurd (hbad (fun h0 => hbad01.1 h0)) hbad01.2
                · exact Or.inl ⟨f, hfr, hbad01⟩
              · rcases List.mem_cons.mp hf with rfl | hfr
                · rcases List.mem_cons.mp hg with rfl | hgr
                  · exact absurd rfl hfg
                  · refine Or.inr (Or.inr ⟨by rw [hc1red, hcr], g, hgr, ?_⟩)
                    rw [← haxne]
                    exact Ne.symm hfg
                · rcases List.mem_cons.mp hg with rfl | hgr
                  · refine Or.inr (Or.inr ⟨by rw [hc1red, hcr], f, hfr, ?_⟩)
                    rw [← haxne]
                    exact hfg
                  · exact Or.inr (Or.inl ⟨f, hfr, g, hgr, hfg⟩)
              · rcases List.mem_cons.mp hf with rfl | hfr
                · exact absurd haxne (by rw [hc1axis]; exact hfx)
                · exact Or.inr (Or.inr ⟨by rw [hc1red, hcr], f, hfr, by rw [hc1axis]; exact hfx⟩)
          | false =>
            rw [hc1red, hcr]
            simp only [Bool.false_eq_true, if_false]
            show ∃ e, Except.bind (Except.ok _) (fun x => rest.foldlM classifyStep x) = .error e
            simp only [Except.bind]
            apply ih
            have hax0 : ax = some (ax.getD 1) := by
              rcases Classical.em (ax = some 0) with h0 | h0
              · rw [h0]; rfl
              · rw [hbad h0]; rfl
            rcases h with ⟨f, hf, hbad01⟩ | ⟨f, hf, g, hg, hfg⟩ | ⟨hcontra, _⟩
            · rcases List.mem_cons.mp hf with rfl | hfr
              · exact absurd (hbad (fun h0 => hbad01.1 h0)) hbad01.2
              · exact Or.inl ⟨f, hfr, hbad01⟩
            · rcases List.mem_cons.mp hf with rfl | hfr
              · rcases List.mem_cons.mp hg with rfl | hgr
                · exact absurd rfl hfg
                · refine Or.inr (Or.inr ⟨rfl, g, hgr, ?_⟩)
                  rw [← hax0]
                  exact Ne.symm hfg
              · rcases List.mem_cons.mp hg with rfl | hgr
                · refine Or.inr (Or.inr ⟨rfl, f, hfr, ?_⟩)
                  rw [← hax0]
                  exact hfg
                · exact Or.inr (Or.inl ⟨f, hfr, g, hgr, hfg⟩)
            · rw [hcr] at hcontra
              exact absurd hcontra (by simp)

/-- **C7** (confirmed).  A reduction descriptor whose axis is not 0 or 1,
or two reduction descriptors with different axes, make the classification
scan raise, and therefore the whole call fails before the kernel cache or
launch is ever reached. -/
theorem reduction_axis_scan_errors (args : List CallArg)
    (h : (∃ f ∈ redAxisFields args, f ≠ some 0 ∧ f ≠ some 1) ∨
         (∃ f ∈ redAxisFields args, ∃ g ∈ redAxisFields args, f ≠ g)) :
    (∃ e, args.foldlM classifyStep {} = .error e) ∧
    ∀ randState, ∃ e, callDriver randState args = .error e := by
  have hscan := classifyFold_error args {}
    (by rcases h with h1 | h2
        · exact Or.inl h1
        · exact Or.inr (Or.inl h2))
  refine ⟨hscan, fun randState => ?_⟩
  obtain ⟨e, he⟩ := hscan
  refine ⟨e, ?_⟩
  unfold callDriver
  rw [he]
  rfl

theorem reduction_axis_scan_errors_witness :
    ∃ e, callDriver 0 [CallArg.opd "sum" (some 0) none,
      CallArg.opd "max" (some 1) none] = .error e :=
  (reduction_axis_scan_errors
    [CallArg.opd "sum" (some 0) none, CallArg.opd "max" (some 1) none]
    (Or.inr ⟨some 0, by decide, some 1, by decide, by decide⟩)).2 0

/-- C3 concrete input: shapes (3,4) and (3,5) under `add` (the second
operand non-contiguous so the native 2-D dimensions are used). -/
def shapeCexArgs : List CallArg :=
  [CallArg.tensor ⟨0, [3, 4], [4, 1], 12, "f4", none, false, true, 0, 100⟩,
   CallArg.tensor ⟨1, [3, 4], [4, 1], 12, "f4", none, false, true, 0, 101⟩,
   CallArg.tensor ⟨2, [3, 5], [5, 1], 15, "f4", none, false, false, 0, 102⟩,
   CallArg.opd "add" none none,
   CallArg.opd "assign" none none]

/-- **C3** (confirmed).  Per-axis shape unification: a differing axis on
which neither operand has extent 1 raises the fatal `TypeError`; equal
sizes pass through and a 1 broadcasts to the other size (the result is
the per-axis max); and on the concrete shapes (3,4), (3,5) under `add`
the whole call fails before any kernel is fetched, compiled or launched
(`callDriver` returns an error, so the `_get_compound_kernel` cache key
is never formed). -/
theorem shape_unify_broadcast_or_error :
    (∀ m s : Nat × Nat,
      ((m.1 ≠ s.1 ∧ m.1 ≠ 1 ∧ s.1 ≠ 1) ∨ (m.2 ≠ s.2 ∧ m.2 ≠ 1 ∧ s.2 ≠ 1)) →
        unifyShape m s = .error "Input shape not compatible") ∧
    (∀ m s : Nat × Nat,
      (m.1 = s.1 ∨ m.1 = 1 ∨ s.1 = 1) → (m.2 = s.2 ∨ m.2 = 1 ∨ s.2 = 1) →
        unifyShape m s = .ok (Nat.max m.1 s.1, Nat.max m.2 s.2)) ∧
    callDriver 0 shapeCexArgs = .error "Input shape not compatible" := by
  refine ⟨?_, ?_, by rfl⟩
  · intro m s h
    unfold unifyShape
    dsimp only
    rcases h with ⟨hne, hm1, hs1⟩ | ⟨hne, hm1, hs1⟩
    · rw [if_pos (Ne.symm hne), if_neg (by tauto)]
      rfl
    · by_cases h1 : s.1 = m.1
      · rw [if_neg (by omega)]
        show Except.bind (Except.ok m.1) _ = _
        simp only [Except.bind]
        rw [if_pos (Ne.symm hne), if_neg (by tauto)]
        rfl
      · by_cases hb : s.1 = 1 ∨ m.1 = 1
        · rw [if_pos h1, if_pos hb]
          show Except.bind (Except.ok (Nat.max m.1 s.1)) _ = _
          simp only [Except.bind]
          rw [if_pos (Ne.symm hne), if_neg (by tauto)]
          rfl
        · rw [if_pos h1, if_neg hb]
          rfl
  · intro m s h1 h2
    unfold unifyShape
    dsimp only
    by_cases e1 : s.1 = m.1
    · rw [if_neg (by omega)]
      show Except.bind (Except.ok m.1) _ = _
      simp only [Except.bind]
      by_cases e2 : s.2 = m.2
      · rw [if_neg (by omega)]
        show Except.ok (m.1, m.2) = _
        congr 1
        refine Prod.ext ?_ ?_ <;> simp <;> omega
      · rw [if_pos e2, if_pos (by tauto)]
        show Except.bind (Except.ok (Nat.max m.2 s.2)) _ = _
        simp only [Except.bind]
        show Except.ok (m.1, Nat.max m.2 s.2) = _
        congr 1
        refine Prod.ext ?_ ?_ <;> simp <;> omega
    · rw [if_pos e1, if_pos (by tauto)]
      show Except.bind (Except.ok (Nat.max m.1 s.1)) _ = _
      simp only [Except.bind]
      by_cases e2 : s.2 = m.2
      · rw [if_neg (by omega)]
        show Except.ok (Nat.max m.1 s.1, m.2) = _
        congr 1
        refine Prod.ext ?_ ?_ <;> simp <;> omega
      · rw [if_pos e2, if_pos (by tauto)]
        show Except.bind (Except.ok (Nat.max m.2 s.2)) _ = _
        simp only [Except.bind]
        rfl

theorem shape_unify_broadcast_or_error_witness :
    unifyShape (3, 5) (3, 4) = .error "Input shape not compatible" :=
  shape_unify_broadcast_or_error.1 (3, 5) (3, 4) (Or.inr (by decide))

/-- `Except` bind reductions (definitional; stated for use in `simp`). -/
theorem exbind_ok {α β : Type} (a : α) (f : α → Except String β) :
    (Except.ok a >>= f) = f a := rfl

/-- Whether a call argument is the `assign` descriptor. -/
def isAssignArg : CallArg → Bool
  | .opd n _ _ => n == "assign"
  | _ => false

/-- The thread-count steps exactly as the spec words them: "deep
reductions increase thread count in fixed steps (32→64→128→256→512→1024)
based on the reduction axis extent … otherwise 32". -/
def specThreadSteps (redDepth : Nat) : Nat :=
  if redDepth ≥ 4096 then 1024
  else if redDepth ≥ 2048 then 512
  else if redDepth ≥ 1024 then 256
  else if redDepth ≥ 512 then 128
  else if redDepth ≥ 256 then 64
  else 32

theorem driverStep_threads_stable {c : Classify} {st : DrvState} {b : CallArg}
    {st2 : DrvState} (hb : isAssignArg b = false)
    (hok : driverStep c st b = .ok st2) : st2.threads = st.threads := by
  cases b with
  | tensor t =>
    unfold driverStep at hok
    dsimp only at hok
    cases hts : tensorShapeStrides c t with
    | error e =>
      rw [hts] at hok
      exact Except.noConfusion hok
    | ok p =>
      rw [hts] at hok
      obtain ⟨shape, strides0⟩ := p
      simp only [exbind_ok] at hok
      cases hlook : st.arrayIds.lookup t.tid with
      | some indx =>
        rw [hlook] at hok
        cases hok
        rfl
      | none =>
        rw [hlook] at hok
        cases ho : st.out with
        | none => rw [ho] at hok; cases hok; rfl
        | some o => rw [ho] at hok; cases hok; rfl
  | const v =>
    unfold driverStep at hok
    dsimp only at hok
    cases hlook : st.constIds.lookup v with
    | some indx => rw [hlook] at hok; cases hok; rfl
    | none => rw [hlook] at hok; cases hok; rfl
  | opd name ax ip =>
    have hname : ¬ name = "assign" := by
      simp only [isAssignArg] at hb
      simpa using hb
    unfold driverStep at hok
    dsimp only at hok
    cases hf : floatOpArity name with
    | some k =>
      simp only [hf] at hok
      cases hpu : popUnify k st.shapeStack with
      | error e => rw [hpu] at hok; exact Except.noConfusion hok
      | ok q =>
        rw [hpu] at hok
        obtain ⟨maxShape, stack⟩ := q
        simp only [exbind_ok] at hok
        rw [if_neg hname] at hok
        by_cases honehot : name = "onehot"
        · rw [if_pos honehot] at hok
          cases ax with
          | none => exact Except.noConfusion hok
          | some hotAx =>
            cases ip with
            | none => exact Except.noConfusion hok
            | some ptr => cases hok; rfl
        · rw [if_neg honehot] at hok
          cases hok
          rfl
    | none =>
      simp only [hf] at hok
      cases hr : isReductionOp name with
      | true =>
        rw [hr] at hok
        simp only [if_true] at hok
        cases hs : st.shapeStack with
        | nil => rw [hs] at hok; exact Except.noConfusion hok
        | cons shape rest => rw [hs] at hok; cases hok; rfl
      | false =>
        rw [hr] at hok
        simp only [Bool.false_eq_true, if_false] at hok
        exact Except.noConfusion hok

theorem foldlM_driverStep_threads_stable {c : Classify} :
    ∀ (xs : List CallArg) (st st2 : DrvState),
      (∀ b ∈ xs, isAssignArg b = false) →
      xs.foldlM (driverStep c) st = .ok st2 → st2.threads = st.threads := by
  intro xs
  induction xs with
  | nil =>
    intro st st2 _ hok
    cases hok
    rfl
  | cons b rest ih =>
    intro st st2 hno hok
    rw [List.foldlM_cons] at hok
    cases hstep : driverStep c st b with
    | error e => rw [hstep] at hok; exact Except.noConfusion hok
    | ok mid =>
      rw [hstep] at hok
      have h1 := driverStep_threads_stable (hno b (by simp)) hstep
      have h2 := ih mid st2 (fun x hx => hno x (by simp [hx])) hok
      rw [h2, h1]

theorem assignThreads_eq_spec (c : Classify) (d m : Nat) :
    assignThreads c d m 32 =
      (if c.reduction ∧ ¬ c.argminmax then specThreadSteps d
       else if ¬ (c.reduction ∨ c.transpose) ∧ m ≥ 512 then 256
       else 32) := by
  unfold assignThreads specThreadSteps
  split_ifs <;> rfl

/-- **C5 amended**.  When the stream ends with the single `assign`
descriptor, the chosen thread count is: the fixed steps of the reduction
depth for reduction calls that are *not* argmax/argmin; 256 for
non-reduction, non-transpose calls whose unified output shape has second
axis ≥ 512; and 32 otherwise — in particular argmax/argmin reductions
keep 32 threads, contrary to the claim as stated. -/
theorem compound_call_thread_selection
    (randState : Nat) (xs : List CallArg) (axv ipv : Option Nat) (r : DrvOut)
    (hno : ∀ b ∈ xs, isAssignArg b = false)
    (hok : callDriver randState (xs ++ [CallArg.opd "assign" axv ipv]) = .ok r) :
    r.threads =
      (if r.cls.reduction ∧ ¬ r.cls.argminmax then specThreadSteps r.redDepth
       else if ¬ (r.cls.reduction ∨ r.cls.transpose) ∧ r.maxShape.2 ≥ 512 then 256
       else 32) := by
  unfold callDriver at hok
  cases hc : (xs ++ [CallArg.opd "assign" axv ipv]).foldlM classifyStep {} with
  | error e => rw [hc] at hok; exact Except.noConfusion hok
  | ok c =>
    rw [hc] at hok
    simp only [exbind_ok] at hok
    rw [List.foldlM_append] at hok
    cases hst1 : xs.foldlM (driverStep c) { kernelArgs := [KArg.ptr randState] } with
    | error e => rw [hst1] at hok; exact Except.noConfusion hok
    | ok st1 =>
      rw [hst1] at hok
      simp only [exbind_ok, List.foldlM_cons, List.foldlM_nil] at hok
      cases hstep : driverStep c st1 (CallArg.opd "assign" axv ipv) with
      | error e => rw [hstep] at hok; exact Except.noConfusion hok
      | ok st2 =>
        rw [hstep] at hok
        simp only [exbind_ok] at hok
        have hthreads1 : st1.threads = 32 :=
          foldlM_driverStep_threads_stable xs _ st1 hno hst1
        -- take the assign step apart
        unfold driverStep at hstep
        simp only [show floatOpArity "assign" = some 2 from rfl] at hstep
        cases hpu : popUnify 2 st1.shapeStack with
        | error e => rw [hpu] at hstep; exact Except.noConfusion hstep
        | ok q =>
          rw [hpu] at hstep
          obtain ⟨maxShape, stack⟩ := q
          simp only [exbind_ok, if_true] at hstep
          cases hout : st1.out with
          | none =>
            rw [hout] at hstep
            exact Except.noConfusion hstep
          | some o =>
            rw [hout] at hstep
            dsimp only at hstep
            by_cases hr : o.rounding > 0
            · rw [if_pos hr] at hstep
              cases hstep
              cases hok
              exact (assignThreads_eq_spec c st1.redDepth maxShape.2) ▸
                congrArg (fun t => assignThreads c st1.redDepth maxShape.2 t) hthreads1
            · rw [if_neg hr] at hstep
              cases hstep
              cases hok
              exact (assignThreads_eq_spec c st1.redDepth maxShape.2) ▸
                congrArg (fun t => assignThreads c st1.redDepth maxShape.2 t) hthreads1

/-- C5 concrete input: `C = argmax(A, axis=1)` with a 4096-deep reduction
axis (`C` is 2×1, `A` is 2×4096). -/
def argmaxCexArgs : List CallArg :=
  [CallArg.tensor ⟨0, [2, 1], [1, 1], 2, "f4", none, false, true, 0, 100⟩,
   CallArg.tensor ⟨1, [2, 4096], [4096, 1], 8192, "f4", none, false, true, 0, 101⟩,
   CallArg.opd "argmax" (some 1) none,
   CallArg.opd "assign" none none]

/-- **C5 counterexample**: a reduction call (argmax, reduction depth
4096) for which the claim's fixed steps dictate 1024 threads, but the
code — which guards the step table with `not argminmax` — keeps 32. -/
theorem thread_selection_argminmax_cex :
    (callDriver 7 argmaxCexArgs).map
        (fun r => (r.cls.reduction, r.cls.argminmax, r.redDepth, r.threads)) =
      .ok (true, true, 4096, 32) ∧
    specThreadSteps 4096 = 1024 := ⟨rfl, rfl⟩

theorem compound_call_thread_selection_witness :
    ∃ r, callDriver 7 argmaxCexArgs = .ok r ∧ r.threads = 32 := by
  cases hok : callDriver 7 argmaxCexArgs with
  | error e =>
    exfalso
    have h := thread_selection_argminmax_cex.1
    rw [hok] at h
    exact Except.noConfusion h
  | ok r =>
    refine ⟨r, rfl, ?_⟩
    have h := thread_selection_argminmax_cex.1
    rw [hok] at h
    have h4 := Except.ok.inj h
    have hredu : r.cls.reduction = true := congrArg Prod.fst h4
    have hargm : r.cls.argminmax = true := congrArg (fun t => t.2.1) h4
    have hsel := compound_call_thread_selection 7
      [CallArg.tensor ⟨0, [2, 1], [1, 1], 2, "f4", none, false, true, 0, 100⟩,
       CallArg.tensor ⟨1, [2, 4096], [4096, 1], 8192, "f4", none, false, true, 0, 101⟩,
       CallArg.opd "argmax" (some 1) none] none none r (by decide) hok
    rw [hsel, if_neg (by simp [hargm]), if_neg (by simp [hredu])]



/-- The invariant maintained by `_split_stages` over the dedup dict, the
registered stages and their (ghost) keys: the dict's keys are exactly the
registered stage keys, each registered key appears once, and the dict
maps each stage's key to the last entry of that stage's stack (its result
op node). -/
def SplitInv (st : SplitState) : Prop :=
  st.duplicates.map Prod.fst = st.stageKeys.reverse ∧
  st.stageKeys.Nodup ∧
  List.Forall₂ (fun (stg : String × List TypeArg) (k : Key) =>
    st.duplicates.lookup k = some (stg.2.getLastD (TypeArg.const 0)))
    st.stages st.stageKeys

theorem lookup_none_not_mem_keys {d : List (Key × TypeArg)} {k : Key}
    (h : d.lookup k = none) : k ∉ d.map Prod.fst := by
  induction d with
  | nil => simp
  | cons p rest ih =>
    obtain ⟨k1, v1⟩ := p
    rw [List.lookup] at h
    intro hmem
    rw [List.map_cons, List.mem_cons] at hmem
    cases hbeq : (k == k1) with
    | true =>
      rw [hbeq] at h
      exact Option.noConfusion h
    | false =>
      rw [hbeq] at h
      rcases hmem with heq | hmem2
      · rw [heq] at hbeq
        simp at hbeq
      · exact ih h hmem2

theorem lookup_cons_ne {d : List (Key × TypeArg)} {k k2 : Key} {v : TypeArg}
    (h : k2 ≠ k) : ((k, v) :: d).lookup k2 = d.lookup k2 := by
  have hbeq : (k2 == k) = false := beq_eq_false_iff_ne.mpr h
  rw [List.lookup, hbeq]

theorem forall2_lookup_extend {dups : List (Key × TypeArg)} {key : Key} {v : TypeArg} :
    ∀ {stages : List (String × List TypeArg)} {keys : List Key},
    List.Forall₂ (fun (stg : String × List TypeArg) (k : Key) =>
      dups.lookup k = some (stg.2.getLastD (TypeArg.const 0))) stages keys →
    key ∉ keys →
    List.Forall₂ (fun (stg : String × List TypeArg) (k : Key) =>
      ((key, v) :: dups).lookup k = some (stg.2.getLastD (TypeArg.const 0))) stages keys := by
  intro stages keys h
  induction h with
  | nil => intro _; exact List.Forall₂.nil
  | cons hrel hall ih =>
    intro hnot
    refine List.Forall₂.cons ?_ (ih (fun hm => hnot (List.mem_cons_of_mem _ hm)))
    have hne : _ ≠ key := fun heq => hnot (heq ▸ List.mem_cons_self _ _)
    rw [lookup_cons_ne hne]
    exact hrel

theorem processNode_none_inv {f nid : Nat} {st : SplitState} {k : Key}
    {st2 : SplitState}
    (hpn : processNode f nid st = (none, k, st2)) (h : SplitInv st) :
    SplitInv st2 := by
  unfold processNode at hpn
  dsimp only at hpn
  cases hl : st.duplicates.lookup
      (keyOf (postOrderE st.arena f (.ref nid)) st.aliases) with
  | some dupArg =>
    rw [hl] at hpn
    cases hpn
    exact h
  | none =>
    rw [hl] at hpn
    exact Option.noConfusion (congrArg Prod.fst hpn)

theorem processNode_some_inv {f nid : Nat} {st : SplitState} {stk : List TypeArg}
    {k : Key} {st2 : SplitState} (τ : String)
    (hpn : processNode f nid st = (some stk, k, st2)) (h : SplitInv st) :
    SplitInv { st2 with stages := st2.stages ++ [(τ, stk)],
                        stageKeys := st2.stageKeys ++ [k] } := by
  unfold processNode at hpn
  dsimp only at hpn
  cases hl : st.duplicates.lookup
      (keyOf (postOrderE st.arena f (.ref nid)) st.aliases) with
  | some dupArg =>
    rw [hl] at hpn
    exact Option.noConfusion (congrArg Prod.fst hpn)
  | none =>
    rw [hl] at hpn
    obtain ⟨hstk, hkey, hst2⟩ : stk = postOrderE st.arena f (.ref nid) ∧
        k = keyOf (postOrderE st.arena f (.ref nid)) st.aliases ∧
        st2 = { st with
          duplicates := (keyOf (postOrderE st.arena f (.ref nid)) st.aliases,
            (postOrderE st.arena f (.ref nid)).getLastD (TypeArg.const 0)) :: st.duplicates
          aliases := (postOrderE st.arena f (.ref nid)).getLastD (TypeArg.const 0) ::
            st.aliases
          arena := dropChildren st.arena nid } := by
      refine ⟨?_, ?_, ?_⟩
      · have := congrArg Prod.fst hpn
        simpa using this.symm
      · have := congrArg (fun q => q.2.1) hpn
        simpa using this.symm
      · have := congrArg (fun q => q.2.2) hpn
        simpa using this.symm
    subst hstk hkey hst2
    obtain ⟨h1, h2, h3⟩ := h
    have hknotin : keyOf (postOrderE st.arena f (.ref nid)) st.aliases ∉ st.stageKeys := by
      intro hmem
      have : keyOf (postOrderE st.arena f (.ref nid)) st.aliases ∈
          st.duplicates.map Prod.fst := by
        rw [h1]
        simpa using hmem
      exact lookup_none_not_mem_keys hl this
    refine ⟨?_, ?_, ?_⟩
    · dsimp only [SplitInv]
      rw [List.map_cons, h1, List.reverse_append]
      rfl
    · dsimp only [SplitInv]
      rw [List.nodup_append]
      exact ⟨h2, List.nodup_singleton _, by
        intro a ha hb
        rw [List.mem_singleton] at hb
        rw [hb] at ha
        exact hknotin ha⟩
    · dsimp only [SplitInv]
      refine List.rel_append (forall2_lookup_extend h3 hknotin) ?_
      refine List.forall₂_cons.mpr ⟨?_, List.Forall₂.nil⟩
      rw [List.lookup]
      simp

theorem splitScalar_inv (fuel : Nat) (st6 : SplitState) (h6 : SplitInv st6) :
    SplitInv (
      let st7 : SplitState := { st6 with arena := decParents st6.parents st6.arena }
      match walkScalarParent st7.arena st7.parents.reverse none with
      | none => st7
      | some sp =>
        match processNode (fuel + 1) sp st7 with
        | (scStack, skey, st8) =>
          match scStack with
          | some stk => { st8 with stages := st8.stages ++ [("scalar", stk)],
                                   stageKeys := st8.stageKeys ++ [skey] }
          | none => st8) := by
  dsimp only
  have h7 : SplitInv ({ st6 with arena := decParents st6.parents st6.arena }) := h6
  split
  · exact h7
  · rename_i sp hw
    cases hpn2 : processNode (fuel + 1) sp
        { st6 with arena := decParents st6.parents st6.arena } with
    | mk scStack q =>
      obtain ⟨skey, st8⟩ := q
      dsimp only
      cases scStack with
      | some stk => exact processNode_some_inv "scalar" hpn2 h7
      | none => exact processNode_none_inv hpn2 h7

theorem splitVisit_inv :
    ∀ (fuel : Nat) (e : Elem) (st : SplitState), SplitInv st →
      SplitInv (splitVisit fuel e st) := by
  intro fuel
  induction fuel with
  | zero =>
    intro e st h
    cases e with
    | leafE a => exact h
    | ref nid => exact h
  | succ fuel ih =>
    intro e st h
    cases e with
    | leafE a => exact h
    | ref nid =>
      rw [splitVisit]
      dsimp only
      have hbody : ∀ (st1 : SplitState), SplitInv st1 →
          SplitInv (
            let st2 :=
              match (aget st.arena nid).children.get? 0 with
              | some c => splitVisit fuel c st1
              | none => st1
            let st3 :=
              match (aget st2.arena nid).children.get? 1 with
              | some c => splitVisit fuel c st2
              | none => st2
            let st4 := { st3 with parents := st3.parents.dropLast }
            if isReductionOp (((aget st4.arena nid).arg.opName?).getD "") = true then
              match processNode (fuel + 1) nid st4 with
              | (redStack, rkey, st5) =>
                let st6 :=
                  match redStack with
                  | some stk =>
                      { st5 with stages := st5.stages ++ [("reduction", stk)],
                                 stageKeys := st5.stageKeys ++ [rkey] }
                  | none => st5
                let st7 := { st6 with arena := decParents st6.parents st6.arena }
                match walkScalarParent st7.arena st7.parents.reverse none with
                | none => st7
                | some sp =>
                  match processNode (fuel + 1) sp st7 with
                  | (scStack, skey, st8) =>
                    match scStack with
                    | some stk =>
                        { st8 with stages := st8.stages ++ [("scalar", stk)],
                                   stageKeys := st8.stageKeys ++ [skey] }
                    | none => st8
            else st4) := by
        intro st1 h1
        dsimp only
        have h2 : SplitInv (match (aget st.arena nid).children.get? 0 with
            | some c => splitVisit fuel c st1
            | none => st1) := by
          cases (aget st.arena nid).children.get? 0 with
          | some c => exact ih c st1 h1
          | none => exact h1
        generalize hg2 : (match (aget st.arena nid).children.get? 0 with
            | some c => splitVisit fuel c st1
            | none => st1) = st2 at h2 ⊢
        have h3 : SplitInv (match (aget st2.arena nid).children.get? 1 with
            | some c => splitVisit fuel c st2
            | none => st2) := by
          cases (aget st2.arena nid).children.get? 1 with
          | some c => exact ih c st2 h2
          | none => exact h2
        generalize hg3 : (match (aget st2.arena nid).children.get? 1 with
            | some c => splitVisit fuel c st2
            | none => st2) = st3 at h3 ⊢
        have h4 : SplitInv ({ st3 with parents := st3.parents.dropLast }) := h3
        split
        · cases hpn : processNode (fuel + 1) nid
              { st3 with parents := st3.parents.dropLast } with
          | mk redStack q =>
            obtain ⟨rkey, st5⟩ := q
            dsimp only
            cases redStack with
            | some stk =>
              exact splitScalar_inv fuel _ (processNode_some_inv "reduction" hpn h4)
            | none =>
              exact splitScalar_inv fuel _ (processNode_none_inv hpn h4)
        · exact h4
      exact hbody _ (by split_ifs <;> exact h)

/-- Arena for `t0 = sum(t1, axis) + sum(t1, axis)` (nodes 0-3) plus an
unvisited node 4 holding a third structurally identical `sum(t1)` subtree,
used to exhibit the duplicate branch after a full run. -/
def c1Arena : Arena :=
  [⟨TypeArg.opa "sum" 0 [], true, 1, [Elem.leafE (TypeArg.tensor 1 "f4" 0)]⟩,
   ⟨TypeArg.opa "sum" 1 [], true, 1, [Elem.leafE (TypeArg.tensor 1 "f4" 0)]⟩,
   ⟨TypeArg.opa "add" 2 [], true, 2, [Elem.ref 0, Elem.ref 1]⟩,
   ⟨TypeArg.opa "assign" 3 [0, 32], true, 2,
     [Elem.leafE (TypeArg.tensor 0 "f4" 0), Elem.ref 2]⟩,
   ⟨TypeArg.opa "sum" 4 [], true, 1, [Elem.leafE (TypeArg.tensor 1 "f4" 0)]⟩]

/-- C1: after any `_split_stages` run from a fresh state, each dedup key
registers at most one stage (the stage keys are pairwise distinct), each
registered stage's key maps in the `duplicates` dict to that stage's
result node, and `_process_node` on a subtree whose serialization key is
already recorded produces no stage — it rewrites the node into an alias
of the recorded first occurrence's result node — while a fresh key
returns the serialized stack for stage registration. -/
theorem split_stages_dedups_reduction_subtrees (fuel : Nat) (e : Elem) (ar : Arena) :
    (splitVisit fuel e (initSplitState ar)).stageKeys.Nodup ∧
    List.Forall₂ (fun (stg : String × List TypeArg) (k : Key) =>
        (splitVisit fuel e (initSplitState ar)).duplicates.lookup k =
          some (stg.2.getLastD (TypeArg.const 0)))
      (splitVisit fuel e (initSplitState ar)).stages
      (splitVisit fuel e (initSplitState ar)).stageKeys ∧
    (∀ f2 nid dupArg,
      (splitVisit fuel e (initSplitState ar)).duplicates.lookup
          (keyOf (postOrderE (splitVisit fuel e (initSplitState ar)).arena f2 (.ref nid))
                 (splitVisit fuel e (initSplitState ar)).aliases) = some dupArg →
      processNode f2 nid (splitVisit fuel e (initSplitState ar)) =
        (none,
         keyOf (postOrderE (splitVisit fuel e (initSplitState ar)).arena f2 (.ref nid))
               (splitVisit fuel e (initSplitState ar)).aliases,
         { splitVisit fuel e (initSplitState ar) with
           arena := dropChildren
             (setArg (splitVisit fuel e (initSplitState ar)).arena nid dupArg) nid })) ∧
    (∀ f2 nid,
      (splitVisit fuel e (initSplitState ar)).duplicates.lookup
          (keyOf (postOrderE (splitVisit fuel e (initSplitState ar)).arena f2 (.ref nid))
                 (splitVisit fuel e (initSplitState ar)).aliases) = none →
      (processNode f2 nid (splitVisit fuel e (initSplitState ar))).1 =
        some (postOrderE (splitVisit fuel e (initSplitState ar)).arena f2 (.ref nid))) := by
  have h0 : SplitInv (initSplitState ar) := ⟨rfl, List.nodup_nil, List.Forall₂.nil⟩
  obtain ⟨h1, h2, h3⟩ := splitVisit_inv fuel e (initSplitState ar) h0
  refine ⟨h2, h3, ?_, ?_⟩
  · intro f2 nid dupArg hl
    unfold processNode
    dsimp only
    rw [hl]
  · intro f2 nid hl
    unfold processNode
    dsimp only
    rw [hl]

theorem split_stages_dedups_reduction_subtrees_witness :
    (splitVisit 8 (Elem.ref 3) (initSplitState c1Arena)).stageKeys.Nodup ∧
    (splitVisit 8 (Elem.ref 3) (initSplitState c1Arena)).stages.map Prod.fst =
      ["reduction", "scalar"] ∧
    processNode 8 4 (splitVisit 8 (Elem.ref 3) (initSplitState c1Arena)) =
      (none,
       keyOf (postOrderE (splitVisit 8 (Elem.ref 3) (initSplitState c1Arena)).arena 8
               (Elem.ref 4))
             (splitVisit 8 (Elem.ref 3) (initSplitState c1Arena)).aliases,
       { splitVisit 8 (Elem.ref 3) (initSplitState c1Arena) with
         arena := dropChildren
           (setArg (splitVisit 8 (Elem.ref 3) (initSplitState c1Arena)).arena 4
             (TypeArg.opa "sum" 0 [])) 4 }) := by
  have h := split_stages_dedups_reduction_subtrees 8 (Elem.ref 3) c1Arena
  exact ⟨h.1, by decide, h.2.2.1 8 4 (TypeArg.opa "sum" 0 []) (by decide)⟩


/-- Pointwise correspondence between two call-argument lists that the C2
claim treats as "structurally identical": same constructor, with tensor
identities renamed by `σ` and constant values renamed by `τ`; tensors
must agree on dtype, take-axis and rounding-positivity, operation dicts
on name, axis and presence of an `idx` pointer.  Pointers, shapes,
strides and sizes are unconstrained. -/
def projArg (σ : Nat → Nat) (τ : Rat → Rat) : CallArg → CallArg → Bool
  | .tensor t1, .tensor t2 =>
      decide (t2.tid = σ t1.tid) && decide (t2.dtype = t1.dtype) &&
      decide (t2.takeArr.map Prod.snd = t1.takeArr.map Prod.snd) &&
      (decide (0 < t2.rounding) == decide (0 < t1.rounding))
  | .const v1, .const v2 => decide (v2 = τ v1)
  | .opd n1 ax1 ip1, .opd n2 ax2 ip2 =>
      decide (n2 = n1) && decide (ax2 = ax1) && (ip2.isSome == ip1.isSome)
  | _, _ => false

/-- The simulation relation between the two driver-loop states: equal
counters and `type_args`, dedup tables related by the renamings, and
outputs present together with equal rounding-positivity. -/
def DrvRel (σ : Nat → Nat) (τ : Rat → Rat) (st1 st2 : DrvState) : Prop :=
  st2.argCnt = st1.argCnt ∧ st2.opCnt = st1.opCnt ∧
  st2.typeArgs = st1.typeArgs ∧
  st2.arrayIds = st1.arrayIds.map (fun p => (σ p.1, p.2)) ∧
  st2.constIds = st1.constIds.map (fun p => (τ p.1, p.2)) ∧
  st2.out.map (fun o => decide (0 < o.rounding)) =
    st1.out.map (fun o => decide (0 < o.rounding))

theorem lookup_map_inj {α β γ : Type} [DecidableEq α] [DecidableEq γ]
    {f : α → γ} (hf : Function.Injective f) (l : List (α × β)) (k : α) :
    (l.map (fun p => (f p.1, p.2))).lookup (f k) = l.lookup k := by
  induction l with
  | nil => rfl
  | cons p rest ih =>
    obtain ⟨a, b⟩ := p
    simp only [List.map_cons, List.lookup]
    by_cases h : k = a
    · subst h
      simp
    · have h2 : ¬ (f k = f a) := fun he => h (hf he)
      have hb1 : (k == a) = false := beq_eq_false_iff_ne.mpr h
      have hb2 : (f k == f a) = false := beq_eq_false_iff_ne.mpr h2
      rw [hb1, hb2, ih]

theorem memoGet_snd_hit (cache : List (List TypeArg × Nat)) (k : List TypeArg)
    (id1 id2 : Nat) : (memoGet ((memoGet cache k id1).2.1) k id2).2.2 = false := by
  unfold memoGet
  cases hl : cache.lookup k with
  | some v =>
    dsimp only
    rw [hl]
  | none =>
    dsimp only
    rw [List.lookup]
    simp

theorem classifyStep_axis_tensor {c c' : Classify} {t : TensorArg}
    (h : classifyStep c (.tensor t) = .ok c') :
    c'.axis = c.axis ∧ c'.reduction = c.reduction := by
  unfold classifyStep at h
  dsimp only at h
  split_ifs at h <;> (cases h; exact ⟨rfl, rfl⟩)

theorem classifyStep_axis_opd {c1 c2 c1' c2' : Classify} {n : String}
    {ax : Option Nat} {ip1 ip2 : Option Nat}
    (h1 : classifyStep c1 (.opd n ax ip1) = .ok c1')
    (h2 : classifyStep c2 (.opd n ax ip2) = .ok c2')
    (hax : c2.axis = c1.axis) (hred : c2.reduction = c1.reduction) :
    c2'.axis = c1'.axis ∧ c2'.reduction = c1'.reduction := by
  unfold classifyStep at h1 h2
  dsimp only at h1 h2
  by_cases hr : isReductionOp n = true
  · rw [if_pos hr] at h1 h2
    by_cases hm : isArgMinMax n = true
    · rw [if_pos hm] at h1 h2
      dsimp only at h1 h2
      by_cases hb : (ax ≠ some 0 ∧ ax ≠ some 1)
      · rw [if_pos hb] at h1
        exact (Except.noConfusion h1)
      · rw [if_neg hb] at h1 h2
        rw [hred, hax] at h2
        by_cases hcr : c1.reduction = true
        · rw [if_pos hcr] at h1 h2
          by_cases hne : ax ≠ some c1.axis
          · rw [if_pos hne] at h1
            exact (Except.noConfusion h1)
          · rw [if_neg hne] at h1 h2
            cases h1
            cases h2
            exact ⟨rfl, rfl⟩
        · rw [if_neg hcr] at h1 h2
          cases h1
          cases h2
          exact ⟨rfl, rfl⟩
    · rw [if_neg hm] at h1 h2
      by_cases hb : (ax ≠ some 0 ∧ ax ≠ some 1)
      · rw [if_pos hb] at h1
        exact (Except.noConfusion h1)
      · rw [if_neg hb] at h1 h2
        rw [hred, hax] at h2
        by_cases hcr : c1.reduction = true
        · rw [if_pos hcr] at h1 h2
          by_cases hne : ax ≠ some c1.axis
          · rw [if_pos hne] at h1
            exact (Except.noConfusion h1)
          · rw [if_neg hne] at h1 h2
            cases h1
            cases h2
            exact ⟨hax, hred⟩
        · rw [if_neg hcr] at h1 h2
          cases h1
          cases h2
          exact ⟨rfl, rfl⟩
  · rw [if_neg hr] at h1 h2
    by_cases hoh : n = "onehot"
    · rw [if_pos hoh] at h1 h2
      cases h1
      cases h2
      exact ⟨hax, hred⟩
    · rw [if_neg hoh] at h1 h2
      cases h1
      cases h2
      exact ⟨hax, hred⟩

theorem classifyStep_proj {σ : Nat → Nat} {τ : Rat → Rat} {a1 a2 : CallArg}
    (ha : projArg σ τ a1 a2 = true) {c1 c2 c1' c2' : Classify}
    (h1 : classifyStep c1 a1 = .ok c1') (h2 : classifyStep c2 a2 = .ok c2')
    (hax : c2.axis = c1.axis) (hred : c2.reduction = c1.reduction) :
    c2'.axis = c1'.axis ∧ c2'.reduction = c1'.reduction := by
  cases a1 with
  | tensor t1 =>
    cases a2 with
    | tensor t2 =>
      have e1 := classifyStep_axis_tensor h1
      have e2 := classifyStep_axis_tensor h2
      exact ⟨e2.1.trans (hax.trans e1.1.symm), e2.2.trans (hred.trans e1.2.symm)⟩
    | const v => simp [projArg] at ha
    | opd n ax ip => simp [projArg] at ha
  | const v1 =>
    cases a2 with
    | tensor t => simp [projArg] at ha
    | const v2 =>
      cases h1
      cases h2
      exact ⟨hax, hred⟩
    | opd n ax ip => simp [projArg] at ha
  | opd n1 ax1 ip1 =>
    cases a2 with
    | tensor t => simp [projArg] at ha
    | const v => simp [projArg] at ha
    | opd n2 ax2 ip2 =>
      obtain ⟨⟨hn, haxeq⟩, _⟩ : (n2 = n1 ∧ ax2 = ax1) ∧ ip2.isSome = ip1.isSome := by
        simpa [projArg] using ha
      subst hn haxeq
      exact classifyStep_axis_opd h1 h2 hax hred

theorem classifyFold_proj {σ : Nat → Nat} {τ : Rat → Rat} :
    ∀ {args1 args2 : List CallArg},
      List.Forall₂ (fun a b => projArg σ τ a b = true) args1 args2 →
      ∀ {c1 c2 c1' c2' : Classify},
        args1.foldlM classifyStep c1 = .ok c1' →
        args2.foldlM classifyStep c2 = .ok c2' →
        c2.axis = c1.axis → c2.reduction = c1.reduction →
        c2'.axis = c1'.axis ∧ c2'.reduction = c1'.reduction := by
  intro args1 args2 hall
  induction hall with
  | nil =>
    intro c1 c2 c1' c2' h1 h2 hax hred
    cases h1
    cases h2
    exact ⟨hax, hred⟩
  | cons ha hrest ih =>
    intro c1 c2 c1' c2' h1 h2 hax hred
    rw [List.foldlM_cons] at h1 h2
    cases hs1 : classifyStep c1 _ with
    | error e => rw [hs1] at h1; exact Except.noConfusion h1
    | ok m1 =>
      rw [hs1] at h1
      simp only [exbind_ok] at h1
      cases hs2 : classifyStep c2 _ with
      | error e => rw [hs2] at h2; exact Except.noConfusion h2
      | ok m2 =>
        rw [hs2] at h2
        simp only [exbind_ok] at h2
        obtain ⟨hax', hred'⟩ := classifyStep_proj ha hs1 hs2 hax hred
        exact ih h1 h2 hax' hred'

theorem driverStep_proj {σ : Nat → Nat} {τ : Rat → Rat}
    (hσ : Function.Injective σ) (hτ : Function.Injective τ)
    {c1 c2 : Classify} (hax : c2.axis = c1.axis)
    {a1 a2 : CallArg} (ha : projArg σ τ a1 a2 = true) (hna : isAssignArg a1 = false)
    {st1 st2 st1' st2' : DrvState}
    (h1 : driverStep c1 st1 a1 = .ok st1') (h2 : driverStep c2 st2 a2 = .ok st2')
    (hR : DrvRel σ τ st1 st2) : DrvRel σ τ st1' st2' := by
  obtain ⟨hcnt, hop, hty, harr, hconst, hout⟩ := hR
  cases a1 with
  | tensor t1 =>
    cases a2 with
    | const v => simp [projArg] at ha
    | opd n ax ip => simp [projArg] at ha
    | tensor t2 =>
      obtain ⟨⟨⟨htid, hdt⟩, htk⟩, hrnd⟩ :
          ((t2.tid = σ t1.tid ∧ t2.dtype = t1.dtype) ∧
            t2.takeArr.map Prod.snd = t1.takeArr.map Prod.snd) ∧
          decide (0 < t2.rounding) = decide (0 < t1.rounding) := by
        simpa [projArg] using ha
      unfold driverStep at h1 h2
      dsimp only at h1 h2
      cases hts1 : tensorShapeStrides c1 t1 with
      | error e => rw [hts1] at h1; exact Except.noConfusion h1
      | ok p1 =>
        rw [hts1] at h1
        obtain ⟨sh1, sd1⟩ := p1
        simp only [exbind_ok] at h1
        cases hts2 : tensorShapeStrides c2 t2 with
        | error e => rw [hts2] at h2; exact Except.noConfusion h2
        | ok p2 =>
          rw [hts2] at h2
          obtain ⟨sh2, sd2⟩ := p2
          simp only [exbind_ok] at h2
          have hlk : st2.arrayIds.lookup t2.tid = st1.arrayIds.lookup t1.tid := by
            rw [htid, harr, lookup_map_inj hσ]
          cases hlook : st1.arrayIds.lookup t1.tid with
          | some indx =>
            rw [hlook] at h1
            rw [hlk, hlook] at h2
            cases h1
            cases h2
            refine ⟨hcnt, hop, ?_, harr, hconst, hout⟩
            dsimp only
            rw [hty, hdt, hax]
            refine congrArg (fun m => st1.typeArgs ++ [TypeArg.tensor indx t1.dtype m]) ?_
            cases ht1 : t1.takeArr with
            | none =>
              cases ht2 : t2.takeArr with
              | none => rfl
              | some ta2 =>
                rw [ht1, ht2] at htk
                simp at htk
            | some ta1 =>
              cases ht2 : t2.takeArr with
              | none =>
                rw [ht1, ht2] at htk
                simp at htk
              | some ta2 =>
                have hsnd : ta2.2 = ta1.2 := by
                  rw [ht1, ht2] at htk
                  simpa using htk
                dsimp only
                rw [hsnd]
          | none =>
            rw [hlook] at h1
            rw [hlk, hlook] at h2
            cases ho1 : st1.out with
            | none =>
              have ho2 : st2.out = none := by
                rw [ho1] at hout
                rw [Option.map_none'] at hout
                exact Option.map_eq_none'.mp hout
              rw [ho1] at h1
              rw [ho2] at h2
              cases h1
              cases h2
              refine ⟨?_, hop, ?_, harr, hconst, ?_⟩
              · dsimp only
                rw [hcnt]
              · dsimp only
                rw [hty, hdt, hcnt, hax]
                refine congrArg (fun m => st1.typeArgs ++ [TypeArg.tensor st1.argCnt t1.dtype m]) ?_
                cases ht1 : t1.takeArr with
                | none =>
                  cases ht2 : t2.takeArr with
                  | none => rfl
                  | some ta2 =>
                    rw [ht1, ht2] at htk
                    simp at htk
                | some ta1 =>
                  cases ht2 : t2.takeArr with
                  | none =>
                    rw [ht1, ht2] at htk
                    simp at htk
                  | some ta2 =>
                    have hsnd : ta2.2 = ta1.2 := by
                      rw [ht1, ht2] at htk
                      simpa using htk
                    dsimp only
                    rw [hsnd]
              · dsimp only [Option.map]
                rw [hrnd]
            | some o1 =>
              cases ho2 : st2.out with
              | none =>
                rw [ho1, ho2] at hout
                simp at hout
              | some o2 =>
                rw [ho1] at h1
                rw [ho2] at h2
                cases h1
                cases h2
                refine ⟨?_, hop, ?_, ?_, hconst, ?_⟩
                · dsimp only
                  rw [hcnt]
                · dsimp only
                  rw [hty, hdt, hcnt, hax]
                  refine congrArg (fun m => st1.typeArgs ++ [TypeArg.tensor st1.argCnt t1.dtype m]) ?_
                  cases ht1 : t1.takeArr with
                  | none =>
                    cases ht2 : t2.takeArr with
                    | none => rfl
                    | some ta2 =>
                      rw [ht1, ht2] at htk
                      simp at htk
                  | some ta1 =>
                    cases ht2 : t2.takeArr with
                    | none =>
                      rw [ht1, ht2] at htk
                      simp at htk
                    | some ta2 =>
                      have hsnd : ta2.2 = ta1.2 := by
                        rw [ht1, ht2] at htk
                        simpa using htk
                      dsimp only
                      rw [hsnd]
                · dsimp only
                  rw [htid, hcnt, harr, List.map_cons]
                · rw [ho1, ho2] at hout
                  exact hout
  | const v1 =>
    cases a2 with
    | tensor t => simp [projArg] at ha
    | opd n ax ip => simp [projArg] at ha
    | const v2 =>
      have hv : v2 = τ v1 := by simpa [projArg] using ha
      subst hv
      unfold driverStep at h1 h2
      dsimp only at h1 h2
      have hlk : st2.constIds.lookup (τ v1) = st1.constIds.lookup v1 := by
        rw [hconst, lookup_map_inj hτ]
      cases hlook : st1.constIds.lookup v1 with
      | some indx =>
        rw [hlook] at h1
        rw [hlk, hlook] at h2
        cases h1
        cases h2
        refine ⟨hcnt, hop, ?_, harr, hconst, hout⟩
        dsimp only
        rw [hty]
      | none =>
        rw [hlook] at h1
        rw [hlk, hlook] at h2
        cases h1
        cases h2
        refine ⟨?_, hop, ?_, harr, ?_, hout⟩
        · dsimp only
          rw [hcnt]
        · dsimp only
          rw [hty, hcnt]
        · dsimp only
          rw [hconst, hcnt, List.map_cons]
  | opd n1 ax1 ip1 =>
    cases a2 with
    | tensor t => simp [projArg] at ha
    | const v => simp [projArg] at ha
    | opd n2 ax2 ip2 =>
      obtain ⟨⟨hn, haxeq⟩, hip⟩ : (n2 = n1 ∧ ax2 = ax1) ∧ ip2.isSome = ip1.isSome := by
        simpa [projArg] using ha
      rw [hn, haxeq] at h2
      have hname : ¬ n1 = "assign" := by
        simp only [isAssignArg] at hna
        simpa using hna
      unfold driverStep at h1 h2
      dsimp only at h1 h2
      cases hf : floatOpArity n1 with
      | some k =>
        simp only [hf] at h1 h2
        cases hpu1 : popUnify k st1.shapeStack with
        | error e => rw [hpu1] at h1; exact Except.noConfusion h1
        | ok q1 =>
          rw [hpu1] at h1
          obtain ⟨ms1, stk1⟩ := q1
          simp only [exbind_ok] at h1
          cases hpu2 : popUnify k st2.shapeStack with
          | error e => rw [hpu2] at h2; exact Except.noConfusion h2
          | ok q2 =>
            rw [hpu2] at h2
            obtain ⟨ms2, stk2⟩ := q2
            simp only [exbind_ok] at h2
            rw [if_neg hname] at h1 h2
            by_cases hoh : n1 = "onehot"
            · rw [if_pos hoh] at h1 h2
              cases ax1 with
              | none => exact Except.noConfusion h1
              | some hotAx =>
                cases ip1 with
                | none =>
                  cases ip2 with
                  | none => exact Except.noConfusion h1
                  | some p2 => simp at hip
                | some p1 =>
                  cases ip2 with
                  | none => simp at hip
                  | some p2 =>
                    cases h1
                    cases h2
                    refine ⟨hcnt, ?_, ?_, harr, hconst, hout⟩
                    · dsimp only
                      rw [hop]
                    · dsimp only
                      rw [hty, hop, hax]
            · rw [if_neg hoh] at h1 h2
              cases h1
              cases h2
              refine ⟨hcnt, ?_, ?_, harr, hconst, hout⟩
              · dsimp only
                rw [hop]
              · dsimp only
                rw [hty, hop]
      | none =>
        simp only [hf] at h1 h2
        cases hr : isReductionOp n1 with
        | true =>
          rw [hr] at h1 h2
          simp only [if_true] at h1 h2
          cases hs1 : st1.shapeStack with
          | nil => rw [hs1] at h1; exact Except.noConfusion h1
          | cons shape1 rest1 =>
            rw [hs1] at h1
            cases hs2 : st2.shapeStack with
            | nil => rw [hs2] at h2; exact Except.noConfusion h2
            | cons shape2 rest2 =>
              rw [hs2] at h2
              cases h1
              cases h2
              refine ⟨hcnt, ?_, ?_, harr, hconst, hout⟩
              · dsimp only
                rw [hop]
              · dsimp only
                rw [hty, hop]
        | false =>
          rw [hr] at h1
          simp only [Bool.false_eq_true, if_false] at h1
          exact Except.noConfusion h1

theorem foldlM_driverStep_proj {σ : Nat → Nat} {τ : Rat → Rat}
    (hσ : Function.Injective σ) (hτ : Function.Injective τ)
    {c1 c2 : Classify} (hax : c2.axis = c1.axis) :
    ∀ {xs1 xs2 : List CallArg},
      List.Forall₂ (fun a b => projArg σ τ a b = true) xs1 xs2 →
      (∀ a ∈ xs1, isAssignArg a = false) →
      ∀ {st1 st2 st1' st2' : DrvState},
        xs1.foldlM (driverStep c1) st1 = .ok st1' →
        xs2.foldlM (driverStep c2) st2 = .ok st2' →
        DrvRel σ τ st1 st2 → DrvRel σ τ st1' st2' := by
  intro xs1 xs2 hall
  induction hall with
  | nil =>
    intro _ st1 st2 st1' st2' h1 h2 hR
    cases h1
    cases h2
    exact hR
  | cons ha hrest ih =>
    intro hna st1 st2 st1' st2' h1 h2 hR
    rw [List.foldlM_cons] at h1 h2
    cases hs1 : driverStep c1 st1 _ with
    | error e => rw [hs1] at h1; exact Except.noConfusion h1
    | ok m1 =>
      rw [hs1] at h1
      simp only [exbind_ok] at h1
      cases hs2 : driverStep c2 st2 _ with
      | error e => rw [hs2] at h2; exact Except.noConfusion h2
      | ok m2 =>
        rw [hs2] at h2
        simp only [exbind_ok] at h2
        exact ih (fun x hx => hna x (List.mem_cons_of_mem _ hx)) h1 h2
          (driverStep_proj hσ hτ hax ha (hna _ (List.mem_cons_self _ _)) hs1 hs2 hR)

theorem driverStep_assign_proj {σ : Nat → Nat} {τ : Rat → Rat}
    {c1 c2 : Classify} {ax1 ip1 ax2 ip2 : Option Nat}
    {st1 st2 st1' st2' : DrvState}
    (h1 : driverStep c1 st1 (.opd "assign" ax1 ip1) = .ok st1')
    (h2 : driverStep c2 st2 (.opd "assign" ax2 ip2) = .ok st2')
    (hR : DrvRel σ τ st1 st2)
    (hth : st1'.threads = st2'.threads) :
    st2'.typeArgs = st1'.typeArgs := by
  obtain ⟨hcnt, hop, hty, harr, hconst, hout⟩ := hR
  unfold driverStep at h1 h2
  simp only [show floatOpArity "assign" = some 2 from rfl] at h1 h2
  cases hpu1 : popUnify 2 st1.shapeStack with
  | error e => rw [hpu1] at h1; exact Except.noConfusion h1
  | ok q1 =>
    rw [hpu1] at h1
    obtain ⟨ms1, stk1⟩ := q1
    simp only [exbind_ok, if_true] at h1
    cases hpu2 : popUnify 2 st2.shapeStack with
    | error e => rw [hpu2] at h2; exact Except.noConfusion h2
    | ok q2 =>
      rw [hpu2] at h2
      obtain ⟨ms2, stk2⟩ := q2
      simp only [exbind_ok, if_true] at h2
      cases ho1 : st1.out with
      | none =>
        rw [ho1] at h1
        exact Except.noConfusion h1
      | some o1 =>
        rw [ho1] at h1
        cases ho2 : st2.out with
        | none =>
          rw [ho2] at h2
          exact Except.noConfusion h2
        | some o2 =>
          rw [ho2] at h2
          dsimp only at h1 h2
          have hf : decide (0 < o2.rounding) = decide (0 < o1.rounding) := by
            rw [ho1, ho2] at hout
            simpa using hout
          by_cases hr1 : o1.rounding > 0
          · have hr2 : o2.rounding > 0 := by
              have := decide_eq_decide.mp hf
              exact this.mpr hr1
            rw [if_pos hr1] at h1
            rw [if_pos hr2] at h2
            cases h1
            cases h2
            dsimp only at hth ⊢
            rw [hty, hop, hth, if_pos hr1, if_pos hr2]
          · have hr2 : ¬ o2.rounding > 0 := by
              have := decide_eq_decide.mp hf
              exact fun hx => hr1 (this.mp hx)
            rw [if_neg hr1] at h1
            rw [if_neg hr2] at h2
            cases h1
            cases h2
            dsimp only at hth ⊢
            rw [hty, hop, hth, if_neg hr1, if_neg hr2]

theorem expure_bind {α β : Type} (a : α) (f : α → Except String β) :
    (pure a >>= f : Except String β) = f a := rfl

/-- C2: the `type_args` cache key is a function of expression structure
only.  For two invocations whose argument streams correspond pointwise
under an injective renaming of tensor identities and of constant values
— preserving operation sequence, dtypes, take modes, rounding flags and
axes, while pointers, shapes, strides, sizes and the constants' values
may all differ — and whose chosen thread counts agree, the driver
produces equal `type_args` tuples, and the memoized kernel-builder does
not compile again on the second key: pointers, strides, constants and
loop bounds appear only in the runtime `kernel_args` list, never in the
key. -/
theorem compound_kernel_cache_key_structural
    (σ : Nat → Nat) (τ : Rat → Rat)
    (hσ : Function.Injective σ) (hτ : Function.Injective τ)
    (xs1 xs2 : List CallArg) (ax1 ip1 ax2 ip2 : Option Nat)
    (hall : List.Forall₂ (fun a b => projArg σ τ a b = true) xs1 xs2)
    (hna : ∀ a ∈ xs1, isAssignArg a = false)
    (rs1 rs2 : Nat) (r1 r2 : DrvOut)
    (h1 : callDriver rs1 (xs1 ++ [.opd "assign" ax1 ip1]) = .ok r1)
    (h2 : callDriver rs2 (xs2 ++ [.opd "assign" ax2 ip2]) = .ok r2)
    (hth : r1.threads = r2.threads) :
    r2.typeArgs = r1.typeArgs ∧
    ∀ (cache : List (List TypeArg × Nat)) (id1 id2 : Nat),
      (memoGet ((memoGet cache r1.typeArgs id1).2.1) r2.typeArgs id2).2.2 = false := by
  unfold callDriver at h1 h2
  cases hc1 : (xs1 ++ [CallArg.opd "assign" ax1 ip1]).foldlM classifyStep {} with
  | error e => rw [hc1] at h1; exact Except.noConfusion h1
  | ok c1 =>
    rw [hc1] at h1
    simp only [exbind_ok] at h1
    cases hc2 : (xs2 ++ [CallArg.opd "assign" ax2 ip2]).foldlM classifyStep {} with
    | error e => rw [hc2] at h2; exact Except.noConfusion h2
    | ok c2 =>
      rw [hc2] at h2
      simp only [exbind_ok] at h2
      rw [List.foldlM_append] at hc1 hc2
      cases hd1 : xs1.foldlM classifyStep {} with
      | error e => rw [hd1] at hc1; exact Except.noConfusion hc1
      | ok d1 =>
        rw [hd1] at hc1
        simp only [exbind_ok, List.foldlM_cons, List.foldlM_nil,
          show ∀ ax ip, classifyStep d1 (CallArg.opd "assign" ax ip) = Except.ok d1 from
            fun _ _ => rfl] at hc1
        cases hd2 : xs2.foldlM classifyStep {} with
        | error e => rw [hd2] at hc2; exact Except.noConfusion hc2
        | ok d2 =>
          rw [hd2] at hc2
          simp only [exbind_ok, List.foldlM_cons, List.foldlM_nil,
            show ∀ ax ip, classifyStep d2 (CallArg.opd "assign" ax ip) = Except.ok d2 from
              fun _ _ => rfl] at hc2
          cases hc1
          cases hc2
          have hax : c2.axis = c1.axis := (classifyFold_proj hall hd1 hd2 rfl rfl).1
          rw [List.foldlM_append] at h1 h2
          cases hst1 : xs1.foldlM (driverStep c1) { kernelArgs := [KArg.ptr rs1] } with
          | error e => rw [hst1] at h1; exact Except.noConfusion h1
          | ok mid1 =>
            rw [hst1] at h1
            simp only [exbind_ok, List.foldlM_cons, List.foldlM_nil] at h1
            cases hstep1 : driverStep c1 mid1 (CallArg.opd "assign" ax1 ip1) with
            | error e => rw [hstep1] at h1; exact Except.noConfusion h1
            | ok fin1 =>
              rw [hstep1] at h1
              simp only [exbind_ok, expure_bind] at h1
              cases hst2 : xs2.foldlM (driverStep c2) { kernelArgs := [KArg.ptr rs2] } with
              | error e => rw [hst2] at h2; exact Except.noConfusion h2
              | ok mid2 =>
                rw [hst2] at h2
                simp only [exbind_ok, List.foldlM_cons, List.foldlM_nil] at h2
                cases hstep2 : driverStep c2 mid2 (CallArg.opd "assign" ax2 ip2) with
                | error e => rw [hstep2] at h2; exact Except.noConfusion h2
                | ok fin2 =>
                  rw [hstep2] at h2
                  simp only [exbind_ok, expure_bind] at h2
                  cases hfo1 : fin1.out with
                  | none =>
                    rw [hfo1] at h1
                    cases hfm1 : fin1.maxShape with
                    | none => rw [hfm1] at h1; exact Except.noConfusion h1
                    | some m => rw [hfm1] at h1; exact Except.noConfusion h1
                  | some out1 =>
                    rw [hfo1] at h1
                    cases hfm1 : fin1.maxShape with
                    | none => rw [hfm1] at h1; exact Except.noConfusion h1
                    | some msh1 =>
                      rw [hfm1] at h1
                      cases hfo2 : fin2.out with
                      | none =>
                        rw [hfo2] at h2
                        cases hfm2 : fin2.maxShape with
                        | none => rw [hfm2] at h2; exact Except.noConfusion h2
                        | some m => rw [hfm2] at h2; exact Except.noConfusion h2
                      | some out2 =>
                        rw [hfo2] at h2
                        cases hfm2 : fin2.maxShape with
                        | none => rw [hfm2] at h2; exact Except.noConfusion h2
                        | some msh2 =>
                          rw [hfm2] at h2
                          cases h1
                          cases h2
                          dsimp only at hth
                          have hmid := foldlM_driverStep_proj hσ hτ hax hall hna
                            hst1 hst2 ⟨rfl, rfl, rfl, rfl, rfl, rfl⟩
                          have htyeq := driverStep_assign_proj hstep1 hstep2 hmid hth
                          exact ⟨htyeq, fun cache id1 id2 => by
                            dsimp only
                            rw [show fin2.typeArgs = fin1.typeArgs from htyeq]
                            exact memoGet_snd_hit cache fin1.typeArgs id1 id2⟩

/-- First invocation of `t0 = t1 * 2.5` (without the trailing assign):
tensors 0 and 1, shape 2×4, contiguous. -/
def c2PrefixA : List CallArg :=
  [CallArg.tensor ⟨0, [2, 4], [4, 1], 8, "f4", none, false, true, 0, 100⟩,
   CallArg.tensor ⟨1, [2, 4], [4, 1], 8, "f4", none, false, true, 0, 104⟩,
   CallArg.const (5 / 2 : Rat),
   CallArg.opd "mul" none none]

/-- Second invocation: same expression over different tensor instances —
identities shifted by 3, constant shifted by 1, different shapes,
strides and device pointers. -/
def c2PrefixB : List CallArg :=
  [CallArg.tensor ⟨3, [4, 2], [2, 1], 8, "f4", none, false, true, 0, 200⟩,
   CallArg.tensor ⟨4, [4, 2], [2, 1], 8, "f4", none, false, true, 0, 208⟩,
   CallArg.const (7 / 2 : Rat),
   CallArg.opd "mul" none none]

def c2ArgsA : List CallArg := c2PrefixA ++ [CallArg.opd "assign" none none]

def c2ArgsB : List CallArg := c2PrefixB ++ [CallArg.opd "assign" none none]

theorem compound_kernel_cache_key_structural_witness :
    ∃ r1 r2, callDriver 7 c2ArgsA = .ok r1 ∧ callDriver 9 c2ArgsB = .ok r2 ∧
      r2.typeArgs = r1.typeArgs ∧
      ∀ (cache : List (List TypeArg × Nat)) (id1 id2 : Nat),
        (memoGet ((memoGet cache r1.typeArgs id1).2.1) r2.typeArgs id2).2.2 = false := by
  have hm1 : (callDriver 7 c2ArgsA).map (fun r => r.threads) = .ok 32 := rfl
  have hm2 : (callDriver 9 c2ArgsB).map (fun r => r.threads) = .ok 32 := rfl
  cases hok1 : callDriver 7 c2ArgsA with
  | error e => rw [hok1] at hm1; exact Except.noConfusion hm1
  | ok r1 =>
    cases hok2 : callDriver 9 c2ArgsB with
    | error e => rw [hok2] at hm2; exact Except.noConfusion hm2
    | ok r2 =>
      rw [hok1] at hm1
      rw [hok2] at hm2
      have ht1 : r1.threads = 32 := Except.ok.inj hm1
      have ht2 : r2.threads = 32 := Except.ok.inj hm2
      have h := compound_kernel_cache_key_structural (fun n => n + 3) (fun v => v + 1)
        (fun a b hab => by dsimp only at hab; omega) (add_left_injective 1)
        c2PrefixA c2PrefixB none none none none
        (List.Forall₂.cons (by decide)
          (List.Forall₂.cons (by decide)
            (List.Forall₂.cons
              (by simp only [projArg, decide_eq_true_eq]; norm_num)
              (List.Forall₂.cons (by decide) List.Forall₂.nil))))
        (by decide) 7 9 r1 r2 hok1 hok2 (by rw [ht1, ht2])
      exact ⟨r1, r2, rfl, rfl, h.1, h.2⟩



/-- Whether a `type_args` entry is a reduction operation. -/
def isRedTA (a : TypeArg) : Bool := isReductionOp ((a.opName?).getD "")

/-- Entries whose slots must be recorded in `arg_dict` for the runtime
argument list and the signature to stay aligned (everything that makes
the driver push runtime arguments, except reductions, which the final
loop backfills with an unused `i`). -/
def needsDict (a : TypeArg) : Bool :=
  match a with
  | .tensor _ _ _ => true
  | .const _ => true
  | .opa n _ _ => n == "assign" || n == "onehot"

/-- Entries that may legitimately appear as `arg_dict` keys. -/
def relevantTA (a : TypeArg) : Bool := needsDict a || isRedTA a

/-- The parameter slots one `type_args` entry stands for: pointer and two
strides (plus take pointer) for a tensor, a float for a constant, the
loop bound (plus mantissa bits when rounding) for `assign`, the index
pointer for `onehot`, the axis extent for a reduction, nothing for a
plain elementwise operation. -/
def canonSlots : TypeArg → List Slot
  | .tensor _ _ takeAx => [.P, .I, .I] ++ (if takeAx > 0 then [.P] else [])
  | .const _ => [.F]
  | .opa n _ extra =>
      if n = "assign" then (if extra.getD 0 0 > 0 then [.I, .I] else [.I])
      else if n = "onehot" then [.P]
      else if isReductionOp n then [.I]
      else []

/-- One entry of the idealized runtime-argument slot computation: a
first occurrence contributes its canonical slots, a repeated entry
(deduplicated tensor or constant) contributes nothing. -/
def kargStep (acc : List Slot × List TypeArg) (a : TypeArg) :
    List Slot × List TypeArg :=
  if a ∈ acc.2 then acc else (acc.1 ++ canonSlots a, a :: acc.2)

/-- The slot shapes of the runtime argument list, computed from
`type_args` alone: a leading `P` for `rand_state`, then canonical slots
per first occurrence. -/
def kargSlotsOfTypeArgs (ta : List TypeArg) : List Slot :=
  (ta.foldl kargStep ([Slot.P], [])).1

/-- The `arg_dict` assembled by the stage loop of
`_get_compound_kernel`, before the final signature loop consumes it. -/
def sigArgDict (fuel : Nat) (ta : List TypeArg) :
    Except String (List (TypeArg × List Slot)) := do
  let (_, stages) ← compoundStages fuel ta
  let n := stages.length
  let st0 : CGState := ⟨0, [], [], [], []⟩
  let st ← stages.enum.foldlM (fun st p => cgStage (p.1 = n - 1) p.1 st p.2.2) st0
  return st.argDict

/-- Well-formedness of an `arg_dict`: distinct keys, canonical slot
values, and only slot-bearing entries as keys. -/
def DictWF (d : List (TypeArg × List Slot)) : Prop :=
  (d.map Prod.fst).Nodup ∧ ∀ p ∈ d, p.2 = canonSlots p.1 ∧ relevantTA p.1 = true

theorem compoundSigSlots_via_dict (fuel : Nat) (ta : List TypeArg)
    (dict : List (TypeArg × List Slot)) (h : sigArgDict fuel ta = .ok dict) :
    compoundSigSlots fuel ta = .ok ((ta.foldl sigFinalStep ([Slot.P], dict)).1) := by
  unfold sigArgDict at h
  unfold compoundSigSlots
  cases hcs : compoundStages fuel ta with
  | error e =>
    rw [hcs] at h
    exact Except.noConfusion h
  | ok q =>
    rw [hcs] at h
    obtain ⟨st0, stages⟩ := q
    simp only [exbind_ok] at h ⊢
    cases hfold : stages.enum.foldlM
        (fun st p => cgStage (p.1 = stages.length - 1) p.1 st p.2.2)
        (⟨0, [], [], [], []⟩ : CGState) with
    | error e =>
      rw [hfold] at h
      exact Except.noConfusion h
    | ok st =>
      rw [hfold] at h
      cases h
      rfl

theorem lookup_mem {α β : Type} [DecidableEq α] {l : List (α × β)} {k : α} {v : β}
    (h : l.lookup k = some v) : (k, v) ∈ l := by
  induction l with
  | nil => exact Option.noConfusion h
  | cons p rest ih =>
    obtain ⟨a, b⟩ := p
    rw [List.lookup] at h
    cases hbeq : (k == a) with
    | true =>
      rw [hbeq] at h
      cases h
      have : k = a := by simpa using hbeq
      subst this
      exact List.mem_cons_self _ _
    | false =>
      rw [hbeq] at h
      exact List.mem_cons_of_mem _ (ih h)

theorem mem_keys_eraseP_ne {d : List (TypeArg × List Slot)} {a a' : TypeArg}
    (hne : a' ≠ a) (hmem : a' ∈ d.map Prod.fst) :
    a' ∈ (d.eraseP (fun p => p.1 = a)).map Prod.fst := by
  induction d with
  | nil => simpa using hmem
  | cons p rest ih =>
    rw [List.map_cons, List.mem_cons] at hmem
    by_cases hpa : p.1 = a
    · rw [List.eraseP_cons_of_pos (by simpa using hpa)]
      rcases hmem with h1 | h2
      · exact absurd (h1.trans hpa) hne
      · exact h2
    · rw [List.eraseP_cons_of_neg (by simpa using hpa)]
      rw [List.map_cons, List.mem_cons]
      rcases hmem with h1 | h2
      · exact Or.inl h1
      · exact Or.inr (ih h2)

theorem not_mem_keys_eraseP_self {d : List (TypeArg × List Slot)} {a : TypeArg}
    (hnd : (d.map Prod.fst).Nodup) :
    a ∉ (d.eraseP (fun p => p.1 = a)).map Prod.fst := by
  induction d with
  | nil => simp
  | cons p rest ih =>
    rw [List.map_cons, List.nodup_cons] at hnd
    by_cases hpa : p.1 = a
    · rw [List.eraseP_cons_of_pos (by simpa using hpa)]
      rw [← hpa]
      exact hnd.1
    · rw [List.eraseP_cons_of_neg (by simpa using hpa)]
      rw [List.map_cons, List.mem_cons]
      rintro (h1 | h2)
      · exact hpa h1.symm
      · exact ih hnd.2 h2

theorem karg_seen_mem (a : TypeArg) :
    ∀ (ta : List TypeArg) (acc : List Slot × List TypeArg),
      (a ∈ (ta.foldl kargStep acc).2 ↔ a ∈ acc.2 ∨ a ∈ ta) := by
  intro ta
  induction ta with
  | nil => intro acc; simp
  | cons e rest ih =>
    intro acc
    rw [List.foldl_cons, ih]
    unfold kargStep
    by_cases he : e ∈ acc.2
    · rw [if_pos he]
      simp only [List.mem_cons]
      constructor
      · tauto
      · rintro (h | (rfl | h))
        · tauto
        · exact Or.inl he
        · tauto
    · rw [if_neg he]
      dsimp only
      simp only [List.mem_cons]
      tauto

theorem needsDict_not_red {a : TypeArg} (hneed : needsDict a = true) :
    isRedTA a = false := by
  cases a with
  | tensor i dt k => rfl
  | const i => rfl
  | opa n c e =>
    have h2 : n = "assign" ∨ n = "onehot" := by
      simpa [needsDict] using hneed
    rcases h2 with rfl | rfl <;> rfl

theorem canonSlots_red {a : TypeArg} (hneed : needsDict a = false)
    (hred : isRedTA a = true) : canonSlots a = [Slot.I] := by
  cases a with
  | tensor i dt k => exact absurd hneed (by simp [needsDict])
  | const i => exact absurd hneed (by simp [needsDict])
  | opa n c e =>
    have h2 : ¬ n = "assign" ∧ ¬ n = "onehot" := by
      simpa [needsDict] using hneed
    have h3 : isReductionOp n = true := by
      simpa [isRedTA, TypeArg.opName?] using hred
    simp [canonSlots, h2.1, h2.2, h3]

theorem canonSlots_plain {a : TypeArg} (hneed : needsDict a = false)
    (hred : isRedTA a = false) : canonSlots a = [] := by
  cases a with
  | tensor i dt k => exact absurd hneed (by simp [needsDict])
  | const i => exact absurd hneed (by simp [needsDict])
  | opa n c e =>
    have h2 : ¬ n = "assign" ∧ ¬ n = "onehot" := by
      simpa [needsDict] using hneed
    have h3 : isReductionOp n = false := by
      simpa [isRedTA, TypeArg.opName?] using hred
    simp [canonSlots, h2.1, h2.2, h3]

theorem filter_tail_nodup {f : TypeArg → Bool} {a : TypeArg} {l : List TypeArg}
    (h : ((a :: l).filter f).Nodup) : (l.filter f).Nodup := by
  rw [List.filter_cons] at h
  by_cases hf : f a = true
  · rw [if_pos hf] at h
    exact h.of_cons
  · rw [if_neg hf] at h
    exact h

theorem sigFinal_align :
    ∀ (rest : List TypeArg) (seen : List TypeArg) (acc : List Slot)
      (d : List (TypeArg × List Slot)),
      (d.map Prod.fst).Nodup →
      (∀ p ∈ d, p.2 = canonSlots p.1 ∧ relevantTA p.1 = true) →
      (∀ a ∈ rest, needsDict a = true → a ∈ d.map Prod.fst ∨ a ∈ seen) →
      (∀ a ∈ seen, a ∉ d.map Prod.fst) →
      (∀ a ∈ seen, isRedTA a = true → a ∉ rest) →
      (rest.filter (fun a => isRedTA a)).Nodup →
      (rest.foldl sigFinalStep (acc, d)).1 = (rest.foldl kargStep (acc, seen)).1 := by
  intro rest
  induction rest with
  | nil =>
    intro seen acc d _ _ _ _ _ _
    rfl
  | cons a rest ih =>
    intro seen acc d hnd hcanon hcov hdisj hredseen hrednd
    rw [List.foldl_cons, List.foldl_cons]
    cases hfind : d.find? (fun p => p.1 = a) with
    | some p =>
      have hp1 : p.1 = a := by
        have := List.find?_some hfind
        simpa using this
      have hpmem : p ∈ d := List.mem_of_find?_eq_some hfind
      have hpc := hcanon p hpmem
      have hamem : a ∈ d.map Prod.fst := hp1 ▸ List.mem_map_of_mem Prod.fst hpmem
      have hanotseen : a ∉ seen := fun hs => hdisj a hs hamem
      have hsub : List.Sublist (d.eraseP (fun p => p.1 = a)) d := List.eraseP_sublist d
      have hs1 : sigFinalStep (acc, d) a =
          (acc ++ canonSlots a, d.eraseP (fun p => p.1 = a)) := by
        unfold sigFinalStep
        dsimp only
        rw [hfind]
        dsimp only
        rw [hpc.1, hp1]
      have hs2 : kargStep (acc, seen) a = (acc ++ canonSlots a, a :: seen) := by
        unfold kargStep
        dsimp only
        rw [if_neg hanotseen]
      rw [hs1, hs2]
      refine ih (a :: seen) (acc ++ canonSlots a) _ (hnd.sublist (hsub.map Prod.fst))
        (fun p' hp' => hcanon p' (hsub.subset hp')) ?_ ?_ ?_
        (filter_tail_nodup hrednd)
      · intro a' ha' hneed'
        rcases hcov a' (List.mem_cons_of_mem _ ha') hneed' with h | h
        · by_cases hne : a' = a
          · exact Or.inr (hne ▸ List.mem_cons_self _ _)
          · exact Or.inl (mem_keys_eraseP_ne hne h)
        · exact Or.inr (List.mem_cons_of_mem _ h)
      · intro b hb
        rw [List.mem_cons] at hb
        rcases hb with rfl | hb
        · exact not_mem_keys_eraseP_self hnd
        · exact fun hmem => hdisj b hb ((hsub.map Prod.fst).subset hmem)
      · intro b hb hbred
        rw [List.mem_cons] at hb
        rcases hb with rfl | hb
        · rw [List.filter_cons, if_pos hbred] at hrednd
          exact fun hmem => (List.nodup_cons.mp hrednd).1
            (List.mem_filter.mpr ⟨hmem, hbred⟩)
        · exact fun hmem => hredseen b hb hbred (List.mem_cons_of_mem _ hmem)
    | none =>
      have hanotd : a ∉ d.map Prod.fst := by
        intro hmem
        rw [List.mem_map] at hmem
        obtain ⟨p, hpmem, hp1⟩ := hmem
        have := List.find?_eq_none.mp hfind p hpmem
        simp [hp1] at this
      by_cases hneed : needsDict a = true
      · have haseen : a ∈ seen := by
          rcases hcov a (List.mem_cons_self _ _) hneed with h | h
          · exact absurd h hanotd
          · exact h
        have hnotred : isReductionOp ((a.opName?).getD "") = false :=
          needsDict_not_red hneed
        have hs1 : sigFinalStep (acc, d) a = (acc, d) := by
          unfold sigFinalStep
          dsimp only
          rw [hfind]
          dsimp only
          rw [hnotred]
          simp
        have hs2 : kargStep (acc, seen) a = (acc, seen) := by
          unfold kargStep
          dsimp only
          rw [if_pos haseen]
        rw [hs1, hs2]
        exact ih seen acc d hnd hcanon
          (fun a' ha' h => hcov a' (List.mem_cons_of_mem _ ha') h) hdisj
          (fun b hb hbred hmem => hredseen b hb hbred (List.mem_cons_of_mem _ hmem))
          (filter_tail_nodup hrednd)
      · replace hneed : needsDict a = false := by simpa using hneed
        by_cases hred : isRedTA a = true
        · have hanotseen : a ∉ seen :=
            fun hs => hredseen a hs hred (List.mem_cons_self _ _)
          have hredx : isReductionOp ((a.opName?).getD "") = true := hred
          have hs1 : sigFinalStep (acc, d) a = (acc ++ [Slot.I], d) := by
            unfold sigFinalStep
            dsimp only
            rw [hfind]
            dsimp only
            rw [hredx]
            simp
          have hs2 : kargStep (acc, seen) a = (acc ++ [Slot.I], a :: seen) := by
            unfold kargStep
            dsimp only
            rw [if_neg hanotseen, canonSlots_red hneed hred]
          rw [hs1, hs2]
          refine ih (a :: seen) (acc ++ [Slot.I]) d hnd hcanon ?_ ?_ ?_
            (filter_tail_nodup hrednd)
          · intro a' ha' h
            rcases hcov a' (List.mem_cons_of_mem _ ha') h with h2 | h2
            · exact Or.inl h2
            · exact Or.inr (List.mem_cons_of_mem _ h2)
          · intro b hb
            rw [List.mem_cons] at hb
            rcases hb with rfl | hb
            · exact hanotd
            · exact hdisj b hb
          · intro b hb hbred
            rw [List.mem_cons] at hb
            rcases hb with rfl | hb
            · rw [List.filter_cons, if_pos hbred] at hrednd
              exact fun hmem => (List.nodup_cons.mp hrednd).1
                (List.mem_filter.mpr ⟨hmem, hbred⟩)
            · exact fun hmem => hredseen b hb hbred (List.mem_cons_of_mem _ hmem)
        · replace hred : isRedTA a = false := by simpa using hred
          have hredx : isReductionOp ((a.opName?).getD "") = false := hred
          have hs1 : sigFinalStep (acc, d) a = (acc, d) := by
            unfold sigFinalStep
            dsimp only
            rw [hfind]
            dsimp only
            rw [hredx]
            simp
          rw [hs1]
          by_cases haseen : a ∈ seen
          · have hs2 : kargStep (acc, seen) a = (acc, seen) := by
              unfold kargStep
              dsimp only
              rw [if_pos haseen]
            rw [hs2]
            exact ih seen acc d hnd hcanon
              (fun a' ha' h => hcov a' (List.mem_cons_of_mem _ ha') h) hdisj
              (fun b hb hbred hmem => hredseen b hb hbred (List.mem_cons_of_mem _ hmem))
              (filter_tail_nodup hrednd)
          · have hs2 : kargStep (acc, seen) a = (acc, a :: seen) := by
              unfold kargStep
              dsimp only
              rw [if_neg haseen, canonSlots_plain hneed hred, List.append_nil]
            rw [hs2]
            refine ih (a :: seen) acc d hnd hcanon ?_ ?_ ?_
              (filter_tail_nodup hrednd)
            · intro a' ha' h
              rcases hcov a' (List.mem_cons_of_mem _ ha') h with h2 | h2
              · exact Or.inl h2
              · exact Or.inr (List.mem_cons_of_mem _ h2)
            · intro b hb
              rw [List.mem_cons] at hb
              rcases hb with rfl | hb
              · exact hanotd
              · exact hdisj b hb
            · intro b hb hbred
              rw [List.mem_cons] at hb
              rcases hb with rfl | hb
              · rw [hred] at hbred
                exact absurd hbred (by simp)
              · exact fun hmem => hredseen b hb hbred (List.mem_cons_of_mem _ hmem)

theorem dictInsert_wf {k : TypeArg} {v : List Slot} {d : List (TypeArg × List Slot)}
    (hv : v = canonSlots k) (hk : relevantTA k = true) (h : DictWF d) :
    DictWF (dictInsert k v d) := by
  obtain ⟨hnd, hent⟩ := h
  have hsub : List.Sublist (d.filter (fun p => p.1 ≠ k)) d := List.filter_sublist d
  constructor
  · rw [dictInsert, List.map_cons, List.nodup_cons]
    constructor
    · intro hmem
      rw [List.mem_map] at hmem
      obtain ⟨p, hp, hpk⟩ := hmem
      have := List.of_mem_filter hp
      simp only [ne_eq, decide_not, Bool.not_eq_true', decide_eq_false_iff_not] at this
      exact this hpk
    · exact hnd.sublist (hsub.map Prod.fst)
  · intro p hp
    rw [dictInsert, List.mem_cons] at hp
    rcases hp with rfl | hp
    · exact ⟨hv, hk⟩
    · exact hent p (hsub.subset hp)

theorem cgArg_wf {lastS : Bool} {sIdx aIdx : Nat} {lastA : Bool}
    {st st' : CGState} {a : TypeArg}
    (h : cgArg lastS sIdx aIdx lastA st a = .ok st')
    (hwf : DictWF st.argDict) : DictWF st'.argDict := by
  cases a with
  | tensor idx dt takeAx =>
    unfold cgArg at h
    dsimp only at h
    split at h
    · split at h
      · cases h
        exact dictInsert_wf (by simp [canonSlots]) rfl hwf
      · split at h
        · cases h
          exact hwf
        · cases h
          exact hwf
    · dsimp only at h
      split at h
      · cases h
        exact dictInsert_wf (by simp [canonSlots]) rfl hwf
      · split at h
        · cases h
          exact hwf
        · cases h
          exact hwf
  | const v =>
    unfold cgArg at h
    dsimp only at h
    split at h
    · cases h
      exact dictInsert_wf rfl rfl hwf
    · cases h
      exact hwf
  | opa name cnt extra =>
    unfold cgArg at h
    dsimp only at h
    by_cases hname : name = "assign"
    · subst hname
      rw [if_pos rfl] at h
      cases hd : st.depth with
      | zero =>
        rw [hd] at h
        exact Except.noConfusion h
      | succ dep =>
        rw [hd] at h
        cases h
        exact dictInsert_wf (by simp [canonSlots]) rfl hwf
    · rw [if_neg hname] at h
      by_cases hmem : (TypeArg.opa name cnt extra) ∈ st.stageOutReg
      · rw [if_pos hmem] at h
        cases h
        exact hwf
      · rw [if_neg hmem] at h
        cases hf : floatOpArity name with
        | some numOps =>
          simp only [hf] at h
          by_cases hlt : st.depth < numOps
          · rw [if_pos hlt] at h
            exact Except.noConfusion h
          · rw [if_neg hlt] at h
            by_cases hoh : name = "onehot"
            · subst hoh
              rw [if_pos rfl] at h
              split at h
              · cases h
                exact dictInsert_wf (by simp [canonSlots]) rfl hwf
              · cases h
                exact dictInsert_wf (by simp [canonSlots]) rfl hwf
            · rw [if_neg hoh] at h
              split at h
              · cases h
                exact hwf
              · cases h
                exact hwf
        | none =>
          simp only [hf] at h
          by_cases hr : isReductionOp name = true
          · rw [if_pos hr] at h
            cases hd : st.depth with
            | zero =>
              rw [hd] at h
              exact Except.noConfusion h
            | succ dep =>
              rw [hd] at h
              cases h
              have hoh : ¬ name = "onehot" := by
                intro he
                subst he
                exact Option.noConfusion hf
              refine dictInsert_wf ?_ ?_ hwf
              · simp [canonSlots, hname, hoh, hr]
              · simp [relevantTA, isRedTA, TypeArg.opName?, hr]
          · rw [if_neg hr] at h
            exact Except.noConfusion h

theorem cgFold_wf {lastS : Bool} {sIdx n : Nat} :
    ∀ (l : List (Nat × TypeArg)) (st st' : CGState),
      l.foldlM (fun st p => cgArg lastS sIdx p.1 (p.1 = n - 1) st p.2) st = .ok st' →
      DictWF st.argDict → DictWF st'.argDict := by
  intro l
  induction l with
  | nil =>
    intro st st' h hwf
    cases h
    exact hwf
  | cons p rest ih =>
    intro st st' h hwf
    rw [List.foldlM_cons] at h
    cases hs : cgArg lastS sIdx p.1 (p.1 = n - 1) st p.2 with
    | error e => rw [hs] at h; exact Except.noConfusion h
    | ok mid =>
      rw [hs] at h
      simp only [exbind_ok] at h
      exact ih mid st' h (cgArg_wf hs hwf)

theorem cgStage_wf {lastS : Bool} {sIdx : Nat} {st st' : CGState}
    {stack : List TypeArg}
    (h : cgStage lastS sIdx st stack = .ok st') (hwf : DictWF st.argDict) :
    DictWF st'.argDict := by
  unfold cgStage at h
  exact cgFold_wf _ _ _ h hwf

theorem stagesFold_wf {n : Nat} :
    ∀ (l : List (Nat × String × List TypeArg)) (st st' : CGState),
      l.foldlM (fun st p => cgStage (p.1 = n - 1) p.1 st p.2.2) st = .ok st' →
      DictWF st.argDict → DictWF st'.argDict := by
  intro l
  induction l with
  | nil =>
    intro st st' h hwf
    cases h
    exact hwf
  | cons p rest ih =>
    intro st st' h hwf
    rw [List.foldlM_cons] at h
    cases hs : cgStage (p.1 = n - 1) p.1 st p.2.2 with
    | error e => rw [hs] at h; exact Except.noConfusion h
    | ok mid =>
      rw [hs] at h
      simp only [exbind_ok] at h
      exact ih mid st' h (cgStage_wf hs hwf)

theorem sigArgDict_wf {fuel : Nat} {ta : List TypeArg}
    {dict : List (TypeArg × List Slot)} (h : sigArgDict fuel ta = .ok dict) :
    DictWF dict := by
  unfold sigArgDict at h
  cases hcs : compoundStages fuel ta with
  | error e =>
    rw [hcs] at h
    exact Except.noConfusion h
  | ok q =>
    rw [hcs] at h
    obtain ⟨st0, stages⟩ := q
    simp only [exbind_ok] at h
    cases hfold : stages.enum.foldlM
        (fun st p => cgStage (p.1 = stages.length - 1) p.1 st p.2.2)
        (⟨0, [], [], [], []⟩ : CGState) with
    | error e =>
      rw [hfold] at h
      exact Except.noConfusion h
    | ok st =>
      rw [hfold] at h
      cases h
      exact stagesFold_wf _ _ _ hfold ⟨List.nodup_nil, fun p hp => absurd hp (List.not_mem_nil p)⟩

/-- The take-axis field the driver stores for a tensor operand. -/
def takeAxisD (c : Classify) (t : TensorArg) : Nat :=
  match t.takeArr with
  | some p => if c.axis ≠ 1 then 2 - p.2 else p.2 + 1
  | none => 0

/-- Index bounds of a `type_args` entry relative to the driver's
argument and operation counters. -/
def taBound (ac oc : Nat) : TypeArg → Prop
  | .tensor i _ _ => i < ac
  | .const i => i < ac
  | .opa _ i _ => i < oc

theorem taBound_mono {ac oc ac2 oc2 : Nat} (h1 : ac ≤ ac2) (h2 : oc ≤ oc2)
    {e : TypeArg} (h : taBound ac oc e) : taBound ac2 oc2 e := by
  cases e <;> (unfold taBound at h ⊢; omega)

theorem fresh_tensor {ta : List TypeArg} {ac oc : Nat} {dt : String} {k : Nat}
    (hb : ∀ e ∈ ta, taBound ac oc e) : TypeArg.tensor ac dt k ∉ ta :=
  fun hm => absurd (hb _ hm) (by unfold taBound; omega)

theorem fresh_const {ta : List TypeArg} {ac oc : Nat}
    (hb : ∀ e ∈ ta, taBound ac oc e) : TypeArg.const ac ∉ ta :=
  fun hm => absurd (hb _ hm) (by unfold taBound; omega)

theorem fresh_opa {ta : List TypeArg} {ac oc : Nat} {n : String} {x : List Nat}
    (hb : ∀ e ∈ ta, taBound ac oc e) : TypeArg.opa n oc x ∉ ta :=
  fun hm => absurd (hb _ hm) (by unfold taBound; omega)

theorem kargSlots_append (ta : List TypeArg) (e : TypeArg) :
    kargSlotsOfTypeArgs (ta ++ [e]) =
      if e ∈ ta then kargSlotsOfTypeArgs ta
      else kargSlotsOfTypeArgs ta ++ canonSlots e := by
  unfold kargSlotsOfTypeArgs
  rw [List.foldl_append, List.foldl_cons, List.foldl_nil]
  by_cases he : e ∈ ta
  · rw [if_pos he, kargStep]
    rw [if_pos ((karg_seen_mem e ta ([Slot.P], [])).mpr (Or.inr he))]
  · rw [if_neg he, kargStep]
    rw [if_neg (fun hm => he (((karg_seen_mem e ta ([Slot.P], [])).mp hm).resolve_left
      (List.not_mem_nil e)))]

theorem filter_red_append_not {ta : List TypeArg} {e : TypeArg}
    (he : isRedTA e = false) :
    (ta ++ [e]).filter (fun a => isRedTA a) = ta.filter (fun a => isRedTA a) := by
  rw [List.filter_append]
  have h0 : [e].filter (fun a => isRedTA a) = [] := by
    simp [List.filter_cons, he]
  rw [h0, List.append_nil]

theorem filter_red_append_red {ta : List TypeArg} {e : TypeArg}
    (he : isRedTA e = true)
    (hfr : (ta.filter (fun a => isRedTA a)).Nodup) (hnot : e ∉ ta) :
    ((ta ++ [e]).filter (fun a => isRedTA a)).Nodup := by
  rw [List.filter_append, List.nodup_append]
  refine ⟨hfr, ?_, ?_⟩
  · simp [List.filter_cons, he]
  · intro b hb hb2
    have hb3 : b ∈ [e] := List.mem_of_mem_filter hb2
    rw [List.mem_singleton] at hb3
    subst hb3
    exact hnot (List.mem_of_mem_filter hb)

/-- The driver-loop invariant behind the argument-marshaling claim. -/
def KInv (c : Classify) (args : List CallArg) (st : DrvState) : Prop :=
  st.kernelArgs.map KArg.slot = kargSlotsOfTypeArgs st.typeArgs ∧
  (∀ e ∈ st.typeArgs, taBound st.argCnt st.opCnt e) ∧
  (∀ pr ∈ st.arrayIds, ∃ t : TensorArg, CallArg.tensor t ∈ args ∧
     t.tid = pr.1 ∧ TypeArg.tensor pr.2 t.dtype (takeAxisD c t) ∈ st.typeArgs) ∧
  (∀ pr ∈ st.constIds, TypeArg.const pr.2 ∈ st.typeArgs) ∧
  (st.typeArgs.filter (fun a => isRedTA a)).Nodup

theorem driverStep_kinv {c : Classify} {args : List CallArg}
    {st st' : DrvState} {a : CallArg} (hmem : a ∈ args)
    (htid : ∀ t1 t2 : TensorArg, CallArg.tensor t1 ∈ args →
      CallArg.tensor t2 ∈ args → t1.tid = t2.tid → t1 = t2)
    (htake : ∀ t : TensorArg, CallArg.tensor t ∈ args →
      ∀ pr, t.takeArr = some pr → pr.2 < 2)
    (h : driverStep c st a = .ok st') (hinv : KInv c args st) :
    KInv c args st' := by
  obtain ⟨hk, hb, ha, hc, hfr⟩ := hinv
  cases a with
  | tensor t =>
    unfold driverStep at h
    dsimp only at h
    cases hts : tensorShapeStrides c t with
    | error e => rw [hts] at h; exact Except.noConfusion h
    | ok p =>
      rw [hts] at h
      obtain ⟨sh, sd⟩ := p
      simp only [exbind_ok] at h
      cases htk : t.takeArr with
      | none =>
        rw [htk] at h
        dsimp only at h
        have htax : takeAxisD c t = 0 := by
          unfold takeAxisD
          rw [htk]
        cases hlook : st.arrayIds.lookup t.tid with
        | some indx =>
          rw [hlook] at h
          cases h
          obtain ⟨t0, ht0mem, ht0tid, ht0in⟩ := ha (t.tid, indx) (lookup_mem hlook)
          have ht0 : t0 = t := htid t0 t ht0mem hmem ht0tid
          subst ht0
          rw [htax] at ht0in
          refine ⟨?_, ?_, ?_, ?_, ?_⟩
          · dsimp only
            rw [hk, kargSlots_append, if_pos ht0in]
          · intro e he
            rw [List.mem_append] at he
            rcases he with he | he
            · exact hb e he
            · rw [List.mem_singleton] at he
              subst he
              exact hb _ ht0in
          · intro pr hpr
            obtain ⟨t1, h1, h2, h3⟩ := ha pr hpr
            exact ⟨t1, h1, h2, List.mem_append_left _ h3⟩
          · intro pr hpr
            exact List.mem_append_left _ (hc pr hpr)
          · dsimp only
            rw [filter_red_append_not]
            · exact hfr
            · rfl
        | none =>
          rw [hlook] at h
          cases ho : st.out with
          | none =>
            rw [ho] at h
            dsimp only at h
            cases h
            refine ⟨?_, ?_, ?_, ?_, ?_⟩
            · dsimp only
              rw [List.map_append, hk, kargSlots_append, if_neg (fresh_tensor hb)]
              rfl
            · intro e he
              rw [List.mem_append] at he
              rcases he with he | he
              · exact taBound_mono (Nat.le_succ _) (le_refl _) (hb e he)
              · rw [List.mem_singleton] at he
                subst he
                dsimp only [taBound]
                omega
            · intro pr hpr
              obtain ⟨t1, h1, h2, h3⟩ := ha pr hpr
              exact ⟨t1, h1, h2, List.mem_append_left _ h3⟩
            · intro pr hpr
              exact List.mem_append_left _ (hc pr hpr)
            · dsimp only
              rw [filter_red_append_not]
              · exact hfr
              · rfl
          | some o =>
            rw [ho] at h
            dsimp only at h
            cases h
            refine ⟨?_, ?_, ?_, ?_, ?_⟩
            · dsimp only
              rw [List.map_append, hk, kargSlots_append, if_neg (fresh_tensor hb)]
              rfl
            · intro e he
              rw [List.mem_append] at he
              rcases he with he | he
              · exact taBound_mono (Nat.le_succ _) (le_refl _) (hb e he)
              · rw [List.mem_singleton] at he
                subst he
                dsimp only [taBound]
                omega
            · intro pr hpr
              rw [List.mem_cons] at hpr
              rcases hpr with rfl | hpr
              · exact ⟨t, hmem, rfl, List.mem_append_right _ (by rw [htax]; exact List.mem_singleton_self _)⟩
              · obtain ⟨t1, h1, h2, h3⟩ := ha pr hpr
                exact ⟨t1, h1, h2, List.mem_append_left _ h3⟩
            · intro pr hpr
              exact List.mem_append_left _ (hc pr hpr)
            · dsimp only
              rw [filter_red_append_not]
              · exact hfr
              · rfl
      | some tp =>
        rw [htk] at h
        dsimp only at h
        have hlt : tp.2 < 2 := htake t hmem tp htk
        have htax : takeAxisD c t = if c.axis ≠ 1 then 2 - tp.2 else tp.2 + 1 := by
          unfold takeAxisD
          rw [htk]
        have htaxpos : 0 < takeAxisD c t := by
          rw [htax]
          by_cases hax : c.axis ≠ 1
          · rw [if_pos hax]
            omega
          · rw [if_neg hax]
            omega
        cases hlook : st.arrayIds.lookup t.tid with
        | some indx =>
          rw [hlook] at h
          cases h
          obtain ⟨t0, ht0mem, ht0tid, ht0in⟩ := ha (t.tid, indx) (lookup_mem hlook)
          have ht0 : t0 = t := htid t0 t ht0mem hmem ht0tid
          subst ht0
          rw [htax] at ht0in
          refine ⟨?_, ?_, ?_, ?_, ?_⟩
          · dsimp only
            rw [hk, kargSlots_append, if_pos ht0in]
          · intro e he
            rw [List.mem_append] at he
            rcases he with he | he
            · exact hb e he
            · rw [List.mem_singleton] at he
              subst he
              exact hb _ ht0in
          · intro pr hpr
            obtain ⟨t1, h1, h2, h3⟩ := ha pr hpr
            exact ⟨t1, h1, h2, List.mem_append_left _ h3⟩
          · intro pr hpr
            exact List.mem_append_left _ (hc pr hpr)
          · dsimp only
            rw [filter_red_append_not]
            · exact hfr
            · rfl
        | none =>
          rw [hlook] at h
          have hcanon : canonSlots (TypeArg.tensor st.argCnt t.dtype
              (if c.axis ≠ 1 then 2 - tp.2 else tp.2 + 1)) =
              [Slot.P, Slot.I, Slot.I, Slot.P] := by
            have : (0 : Nat) < (if c.axis ≠ 1 then 2 - tp.2 else tp.2 + 1) := by
              rw [← htax]
              exact htaxpos
            simp only [canonSlots]
            rw [if_pos this]
            rfl
          cases ho : st.out with
          | none =>
            rw [ho] at h
            dsimp only at h
            cases h
            refine ⟨?_, ?_, ?_, ?_, ?_⟩
            · dsimp only
              rw [List.map_append, hk, kargSlots_append, if_neg (fresh_tensor hb), hcanon]
              rfl
            · intro e he
              rw [List.mem_append] at he
              rcases he with he | he
              · exact taBound_mono (Nat.le_succ _) (le_refl _) (hb e he)
              · rw [List.mem_singleton] at he
                subst he
                dsimp only [taBound]
                omega
            · intro pr hpr
              obtain ⟨t1, h1, h2, h3⟩ := ha pr hpr
              exact ⟨t1, h1, h2, List.mem_append_left _ h3⟩
            · intro pr hpr
              exact List.mem_append_left _ (hc pr hpr)
            · dsimp only
              rw [filter_red_append_not]
              · exact hfr
              · rfl
          | some o =>
            rw [ho] at h
            dsimp only at h
            cases h
            refine ⟨?_, ?_, ?_, ?_, ?_⟩
            · dsimp only
              rw [List.map_append, hk, kargSlots_append, if_neg (fresh_tensor hb), hcanon]
              rfl
            · intro e he
              rw [List.mem_append] at he
              rcases he with he | he
              · exact taBound_mono (Nat.le_succ _) (le_refl _) (hb e he)
              · rw [List.mem_singleton] at he
                subst he
                dsimp only [taBound]
                omega
            · intro pr hpr
              rw [List.mem_cons] at hpr
              rcases hpr with rfl | hpr
              · exact ⟨t, hmem, rfl, List.mem_append_right _ (by rw [htax]; exact List.mem_singleton_self _)⟩
              · obtain ⟨t1, h1, h2, h3⟩ := ha pr hpr
                exact ⟨t1, h1, h2, List.mem_append_left _ h3⟩
            · intro pr hpr
              exact List.mem_append_left _ (hc pr hpr)
            · dsimp only
              rw [filter_red_append_not]
              · exact hfr
              · rfl
  | const v =>
    unfold driverStep at h
    dsimp only at h
    cases hlook : st.constIds.lookup v with
    | some indx =>
      rw [hlook] at h
      cases h
      have hin : TypeArg.const indx ∈ st.typeArgs := hc (v, indx) (lookup_mem hlook)
      refine ⟨?_, ?_, ?_, ?_, ?_⟩
      · dsimp only
        rw [hk, kargSlots_append, if_pos hin]
      · intro e he
        rw [List.mem_append] at he
        rcases he with he | he
        · exact hb e he
        · rw [List.mem_singleton] at he
          subst he
          exact hb _ hin
      · intro pr hpr
        obtain ⟨t1, h1, h2, h3⟩ := ha pr hpr
        exact ⟨t1, h1, h2, List.mem_append_left _ h3⟩
      · intro pr hpr
        exact List.mem_append_left _ (hc pr hpr)
      · dsimp only
        rw [filter_red_append_not]
        · exact hfr
        · rfl
    | none =>
      rw [hlook] at h
      cases h
      refine ⟨?_, ?_, ?_, ?_, ?_⟩
      · dsimp only
        rw [List.map_append, hk, kargSlots_append, if_neg (fresh_const hb)]
        rfl
      · intro e he
        rw [List.mem_append] at he
        rcases he with he | he
        · exact taBound_mono (Nat.le_succ _) (le_refl _) (hb e he)
        · rw [List.mem_singleton] at he
          subst he
          dsimp only [taBound]
          omega
      · intro pr hpr
        obtain ⟨t1, h1, h2, h3⟩ := ha pr hpr
        exact ⟨t1, h1, h2, List.mem_append_left _ h3⟩
      · intro pr hpr
        rw [List.mem_cons] at hpr
        rcases hpr with rfl | hpr
        · exact List.mem_append_right _ (List.mem_singleton_self _)
        · exact List.mem_append_left _ (hc pr hpr)
      · dsimp only
        rw [filter_red_append_not]
        · exact hfr
        · rfl
  | opd name ax ip =>
    unfold driverStep at h
    dsimp only at h
    cases hf : floatOpArity name with
    | some k =>
      simp only [hf] at h
      cases hpu : popUnify k st.shapeStack with
      | error e => rw [hpu] at h; exact Except.noConfusion h
      | ok q =>
        rw [hpu] at h
        obtain ⟨ms, stk⟩ := q
        simp only [exbind_ok] at h
        have hnred : isReductionOp name = false := floatOp_arity_not_reduction hf
        by_cases hassign : name = "assign"
        · subst hassign
          rw [if_pos rfl] at h
          cases ho : st.out with
          | none => rw [ho] at h; exact Except.noConfusion h
          | some o =>
            rw [ho] at h
            dsimp only at h
            by_cases hr : o.rounding > 0
            · rw [if_pos hr] at h
              cases h
              refine ⟨?_, ?_, ?_, ?_, ?_⟩
              · dsimp only
                have hcn : canonSlots (TypeArg.opa "assign" st.opCnt
                    [if o.rounding > 0 then 1 else 0,
                     assignThreads c st.redDepth ms.2 st.threads]) = [Slot.I, Slot.I] := by
                  simp [canonSlots, hr]
                rw [List.append_assoc, List.map_append, hk, kargSlots_append,
                  if_neg (fresh_opa hb), hcn]
                rfl
              · intro e he
                rw [List.mem_append] at he
                rcases he with he | he
                · exact taBound_mono (le_refl _) (Nat.le_succ _) (hb e he)
                · rw [List.mem_singleton] at he
                  subst he
                  dsimp only [taBound]
                  omega
              · intro pr hpr
                obtain ⟨t1, h1, h2, h3⟩ := ha pr hpr
                exact ⟨t1, h1, h2, List.mem_append_left _ h3⟩
              · intro pr hpr
                exact List.mem_append_left _ (hc pr hpr)
              · dsimp only
                rw [filter_red_append_not]
                · exact hfr
                · rfl
            · rw [if_neg hr] at h
              cases h
              refine ⟨?_, ?_, ?_, ?_, ?_⟩
              · dsimp only
                have hcn : canonSlots (TypeArg.opa "assign" st.opCnt
                    [if o.rounding > 0 then 1 else 0,
                     assignThreads c st.redDepth ms.2 st.threads]) = [Slot.I] := by
                  simp [canonSlots, hr]
                rw [List.map_append, hk, kargSlots_append,
                  if_neg (fresh_opa hb), hcn]
                rfl
              · intro e he
                rw [List.mem_append] at he
                rcases he with he | he
                · exact taBound_mono (le_refl _) (Nat.le_succ _) (hb e he)
                · rw [List.mem_singleton] at he
                  subst he
                  dsimp only [taBound]
                  omega
              · intro pr hpr
                obtain ⟨t1, h1, h2, h3⟩ := ha pr hpr
                exact ⟨t1, h1, h2, List.mem_append_left _ h3⟩
              · intro pr hpr
                exact List.mem_append_left _ (hc pr hpr)
              · dsimp only
                rw [filter_red_append_not]
                · exact hfr
                · rfl
        · rw [if_neg hassign] at h
          by_cases hoh : name = "onehot"
          · subst hoh
            rw [if_pos rfl] at h
            cases ax with
            | none =>
              cases ip with
              | none => exact Except.noConfusion h
              | some p2 => exact Except.noConfusion h
            | some hotAx =>
              cases ip with
              | none => exact Except.noConfusion h
              | some ptr =>
                cases h
                refine ⟨?_, ?_, ?_, ?_, ?_⟩
                · dsimp only
                  have hcn : canonSlots (TypeArg.opa "onehot" st.opCnt
                      [if c.axis ≠ 0 then hotAx else 1 - hotAx]) = [Slot.P] := by
                    simp [canonSlots]
                  rw [List.map_append, hk, kargSlots_append,
                    if_neg (fresh_opa hb), hcn]
                  rfl
                · intro e he
                  rw [List.mem_append] at he
                  rcases he with he | he
                  · exact taBound_mono (le_refl _) (Nat.le_succ _) (hb e he)
                  · rw [List.mem_singleton] at he
                    subst he
                    dsimp only [taBound]
                    omega
                · intro pr hpr
                  obtain ⟨t1, h1, h2, h3⟩ := ha pr hpr
                  exact ⟨t1, h1, h2, List.mem_append_left _ h3⟩
                · intro pr hpr
                  exact List.mem_append_left _ (hc pr hpr)
                · dsimp only
                  rw [filter_red_append_not]
                  · exact hfr
                  · rfl
          · rw [if_neg hoh] at h
            cases h
            refine ⟨?_, ?_, ?_, ?_, ?_⟩
            · dsimp only
              have hcn : canonSlots (TypeArg.opa name st.opCnt []) = [] := by
                simp [canonSlots, hassign, hoh, hnred]
              rw [hk, kargSlots_append, if_neg (fresh_opa hb), hcn, List.append_nil]
            · intro e he
              rw [List.mem_append] at he
              rcases he with he | he
              · exact taBound_mono (le_refl _) (Nat.le_succ _) (hb e he)
              · rw [List.mem_singleton] at he
                subst he
                dsimp only [taBound]
                omega
            · intro pr hpr
              obtain ⟨t1, h1, h2, h3⟩ := ha pr hpr
              exact ⟨t1, h1, h2, List.mem_append_left _ h3⟩
            · intro pr hpr
              exact List.mem_append_left _ (hc pr hpr)
            · dsimp only
              rw [filter_red_append_not]
              · exact hfr
              · exact hnred
    | none =>
      simp only [hf] at h
      cases hr : isReductionOp name with
      | true =>
        rw [hr] at h
        simp only [if_true] at h
        have hna : ¬ name = "assign" := by
          intro he
          subst he
          exact Option.noConfusion hf
        have hoh : ¬ name = "onehot" := by
          intro he
          subst he
          exact Option.noConfusion hf
        cases hs : st.shapeStack with
        | nil => rw [hs] at h; exact Except.noConfusion h
        | cons shape rest =>
          rw [hs] at h
          cases h
          refine ⟨?_, ?_, ?_, ?_, ?_⟩
          · dsimp only
            have hcn : canonSlots (TypeArg.opa name st.opCnt []) = [Slot.I] := by
              simp [canonSlots, hna, hoh, hr]
            rw [List.map_append, hk, kargSlots_append, if_neg (fresh_opa hb), hcn]
            rfl
          · intro e he
            rw [List.mem_append] at he
            rcases he with he | he
            · exact taBound_mono (le_refl _) (Nat.le_succ _) (hb e he)
            · rw [List.mem_singleton] at he
              subst he
              dsimp only [taBound]
              omega
          · intro pr hpr
            obtain ⟨t1, h1, h2, h3⟩ := ha pr hpr
            exact ⟨t1, h1, h2, List.mem_append_left _ h3⟩
          · intro pr hpr
            exact List.mem_append_left _ (hc pr hpr)
          · dsimp only
            exact filter_red_append_red hr hfr (fresh_opa hb)
      | false =>
        rw [hr] at h
        simp only [Bool.false_eq_true, if_false] at h
        exact Except.noConfusion h

theorem foldlM_driverStep_kinv {c : Classify} {args : List CallArg}
    (htid : ∀ t1 t2 : TensorArg, CallArg.tensor t1 ∈ args →
      CallArg.tensor t2 ∈ args → t1.tid = t2.tid → t1 = t2)
    (htake : ∀ t : TensorArg, CallArg.tensor t ∈ args →
      ∀ pr, t.takeArr = some pr → pr.2 < 2) :
    ∀ (xs : List CallArg), (∀ b ∈ xs, b ∈ args) →
      ∀ (st st' : DrvState), xs.foldlM (driverStep c) st = .ok st' →
        KInv c args st → KInv c args st' := by
  intro xs
  induction xs with
  | nil =>
    intro _ st st' h hinv
    cases h
    exact hinv
  | cons b rest ih =>
    intro hsub st st' h hinv
    rw [List.foldlM_cons] at h
    cases hs : driverStep c st b with
    | error e => rw [hs] at h; exact Except.noConfusion h
    | ok mid =>
      rw [hs] at h
      simp only [exbind_ok] at h
      exact ih (fun x hx => hsub x (List.mem_cons_of_mem _ hx)) mid st' h
        (driverStep_kinv (hsub b (List.mem_cons_self _ _)) htid htake hs hinv)

theorem callDriver_karg_slots {rs : Nat} {args : List CallArg} {r : DrvOut}
    (htid : ∀ t1 t2 : TensorArg, CallArg.tensor t1 ∈ args →
      CallArg.tensor t2 ∈ args → t1.tid = t2.tid → t1 = t2)
    (htake : ∀ t : TensorArg, CallArg.tensor t ∈ args →
      ∀ pr, t.takeArr = some pr → pr.2 < 2)
    (h : callDriver rs args = .ok r) :
    r.kernelArgs.map KArg.slot = kargSlotsOfTypeArgs r.typeArgs ∧
    (r.typeArgs.filter (fun a => isRedTA a)).Nodup := by
  unfold callDriver at h
  cases hc : args.foldlM classifyStep {} with
  | error e => rw [hc] at h; exact Except.noConfusion h
  | ok c =>
    rw [hc] at h
    simp only [exbind_ok] at h
    cases hst : args.foldlM (driverStep c) { kernelArgs := [KArg.ptr rs] } with
    | error e => rw [hst] at h; exact Except.noConfusion h
    | ok st =>
      rw [hst] at h
      simp only [exbind_ok] at h
      have hinv : KInv c args st :=
        foldlM_driverStep_kinv htid htake args (fun b hb => hb) _ _ hst
          ⟨rfl, fun e he => absurd he (List.not_mem_nil e),
           fun pr hpr => absurd hpr (List.not_mem_nil pr),
           fun pr hpr => absurd hpr (List.not_mem_nil pr), List.nodup_nil⟩
      cases ho : st.out with
      | none =>
        rw [ho] at h
        cases hm : st.maxShape with
        | none => rw [hm] at h; exact Except.noConfusion h
        | some m => rw [hm] at h; exact Except.noConfusion h
      | some o =>
        rw [ho] at h
        cases hm : st.maxShape with
        | none => rw [hm] at h; exact Except.noConfusion h
        | some m =>
          rw [hm] at h
          cases h
          exact ⟨hinv.1, hinv.2.2.2.2⟩

/-- Object-identity consistency of two call arguments: equal tensor ids
mean equal tensors (Python object identity ties the id to the object). -/
def tidOK : CallArg → CallArg → Bool
  | .tensor t1, .tensor t2 => !(decide (t1.tid = t2.tid)) || decide (t1 = t2)
  | _, _ => true

/-- Take-array axes are Python axes, i.e. 0 or 1. -/
def takeOK : CallArg → Bool
  | .tensor t =>
      match t.takeArr with
      | some pr => decide (pr.2 < 2)
      | none => true
  | _ => true

/-- **C10 amended**.  The runtime argument list and the prepared
positional signature agree entry-for-entry whenever every slot-bearing
`type_args` entry (tensor, constant, `assign`, `onehot`) is recorded in
the stage loop's `arg_dict` — in particular a deduplicated-away
*reduction* never needs recording: the final signature loop backfills it
with exactly one unused `i` slot.  The coverage hypothesis genuinely
fails for an `onehot` inside a deduplicated duplicate subtree (the
counterexample), where the runtime list keeps the extra pointer but the
signature drops it. -/
theorem kernel_args_sig_alignment
    (rs fuel : Nat) (args : List CallArg) (r : DrvOut)
    (dict : List (TypeArg × List Slot))
    (htid : ∀ a1 ∈ args, ∀ a2 ∈ args, tidOK a1 a2 = true)
    (htake : ∀ a ∈ args, takeOK a = true)
    (h : callDriver rs args = .ok r)
    (hdict : sigArgDict fuel r.typeArgs = .ok dict)
    (hcover : ∀ a ∈ r.typeArgs, needsDict a = true → a ∈ dict.map Prod.fst) :
    compoundSigSlots fuel r.typeArgs = .ok (r.kernelArgs.map KArg.slot) := by
  have htid' : ∀ t1 t2 : TensorArg, CallArg.tensor t1 ∈ args →
      CallArg.tensor t2 ∈ args → t1.tid = t2.tid → t1 = t2 := by
    intro t1 t2 h1 h2 he
    have := htid _ h1 _ h2
    simpa [tidOK, he] using this
  have htake' : ∀ t : TensorArg, CallArg.tensor t ∈ args →
      ∀ pr, t.takeArr = some pr → pr.2 < 2 := by
    intro t hm pr hpr
    have := htake _ hm
    unfold takeOK at this
    dsimp only at this
    rw [hpr] at this
    simpa using this
  obtain ⟨hwfa, hwfb⟩ := sigArgDict_wf hdict
  obtain ⟨hslots, hrednd⟩ := callDriver_karg_slots htid' htake' h
  rw [compoundSigSlots_via_dict fuel r.typeArgs dict hdict, hslots]
  exact congrArg Except.ok (sigFinal_align r.typeArgs [] [Slot.P] dict hwfa hwfb
    (fun a ha hn => Or.inl (hcover a ha hn))
    (fun a ha => absurd ha (List.not_mem_nil a))
    (fun a ha => absurd ha (List.not_mem_nil a))
    hrednd)

/-- `t0 = sum(onehot(idx),axis=1) + sum(onehot(idx),axis=1)`: the second
`sum(onehot(idx))` subtree is structurally identical to the first, so
stage splitting deduplicates it — dropping its `onehot` from every
stage. -/
def ohArgs : List CallArg :=
  [CallArg.tensor ⟨0, [2, 2], [2, 1], 4, "f4", none, false, true, 0, 100⟩,
   CallArg.opd "onehot" (some 1) (some 555),
   CallArg.opd "sum" (some 1) none,
   CallArg.opd "onehot" (some 1) (some 555),
   CallArg.opd "sum" (some 1) none,
   CallArg.opd "add" none none,
   CallArg.opd "assign" none none]

/-- **C10 counterexample**: for `ohArgs` the driver marshals 9 runtime
arguments (including a pointer for each of the two `onehot`s) while the
prepared signature has only 8 slots — the deduplicated `onehot` gets no
unused slot, unlike a deduplicated reduction — so the two lists are
misaligned. -/
theorem kernel_args_sig_misalignment_cex :
    (callDriver 7 ohArgs).map (fun r => r.kernelArgs.map KArg.slot) =
      .ok [Slot.P, Slot.P, Slot.I, Slot.I, Slot.P, Slot.I, Slot.P, Slot.I, Slot.I] ∧
    ((callDriver 7 ohArgs).bind (fun r => compoundSigSlots 32 r.typeArgs)) =
      .ok [Slot.P, Slot.P, Slot.I, Slot.I, Slot.P, Slot.I, Slot.I, Slot.I] ∧
    ([Slot.P, Slot.P, Slot.I, Slot.I, Slot.P, Slot.I, Slot.P, Slot.I, Slot.I] ≠
      [Slot.P, Slot.P, Slot.I, Slot.I, Slot.P, Slot.I, Slot.I, Slot.I]) :=
  ⟨rfl, rfl, by decide⟩

/-- Decidable coverage check for a pipeline run: the driver succeeds,
the stage loop succeeds, and every slot-bearing entry is in `arg_dict`. -/
def alignedOK (rs fuel : Nat) (args : List CallArg) : Bool :=
  match callDriver rs args with
  | .ok r =>
      match sigArgDict fuel r.typeArgs with
      | .ok dict =>
          decide (∀ a ∈ r.typeArgs, needsDict a = true → a ∈ dict.map Prod.fst)
      | .error _ => false
  | .error _ => false

/-- `t0 = sum(t1,axis=1) + sum(t1,axis=1)`: the duplicate reduction is
deduplicated away, and the signature stays aligned thanks to the unused
`i` slot. -/
def a10Args : List CallArg :=
  [CallArg.tensor ⟨0, [2, 2], [2, 1], 4, "f4", none, false, true, 0, 100⟩,
   CallArg.tensor ⟨1, [2, 2], [2, 1], 4, "f4", none, false, true, 0, 104⟩,
   CallArg.opd "sum" (some 1) none,
   CallArg.tensor ⟨1, [2, 2], [2, 1], 4, "f4", none, false, true, 0, 104⟩,
   CallArg.opd "sum" (some 1) none,
   CallArg.opd "add" none none,
   CallArg.opd "assign" none none]

theorem kernel_args_sig_alignment_witness :
    ∃ r, callDriver 7 a10Args = .ok r ∧
      compoundSigSlots 32 r.typeArgs = .ok (r.kernelArgs.map KArg.slot) := by
  have hA : alignedOK 7 32 a10Args = true := by decide
  unfold alignedOK at hA
  cases hok : callDriver 7 a10Args with
  | error e =>
    rw [hok] at hA
    exact Bool.noConfusion hA
  | ok r =>
    rw [hok] at hA
    dsimp only at hA
    cases hd : sigArgDict 32 r.typeArgs with
    | error e =>
      rw [hd] at hA
      exact Bool.noConfusion hA
    | ok dict =>
      rw [hd] at hA
      have hcover := of_decide_eq_true hA
      exact ⟨r, rfl,
        kernel_args_sig_alignment 7 32 a10Args r dict (by decide) (by decide)
          hok hd hcover⟩

end FloatEW
